import Mathlib

/-!
Backup-plan resolution of `pkg/manager/Manager.go`.

A shallow embedding of the `manager` package: the Go functions become Lean
functions over an explicit `Manager` state and an explicit `World` (file
system tree, clock, environment), followed by theorems about them.

Conventions

* A Go `string` is a `Str`, a list of characters (one per byte; `len` is the
  list length).
* A Go `error` result is an `Option Error` (`none` is `nil`); a function that
  mutates its receiver returns the new `Manager`.
* `time.Now()` reads `World.clock` at the current tick and advances the tick.
-/

namespace CB

/-- A Go string: a sequence of bytes, each modelled by one character. -/
abbrev Str := List Char

/-! ## The `strings` package -/

/-- The function `strings.TrimSuffix`: `s` without the trailing `suffix`, or
`s` itself when it does not end in `suffix`. -/
def TrimSuffix (s suffix : Str) : Str :=
  if suffix.isSuffixOf s then s.take (s.length - suffix.length) else s

/-- The call `strings.Replace(s, old, new, 1)`: the leftmost occurrence of
`old` in `s` is replaced by `new` (an empty `old` matches at the start). -/
def Replace1 : Str → Str → Str → Str
  | s, old, new =>
    if old.isPrefixOf s then new ++ s.drop old.length
    else
      match s with
      | [] => []
      | c :: cs => c :: Replace1 cs old new

/-! ## The `path/filepath` package (Unix) -/

/-- The separator as a string. -/
def sep : Str := ['/']

/-- The element `.`. -/
def dot : Str := ['.']

/-- The element `..`. -/
def dotdot : Str := ['.', '.']

/-- The function `filepath.IsAbs`: the path starts with the separator. -/
def IsAbs (path : Str) : Bool :=
  match path with
  | c :: _ => c == '/'
  | [] => false

/-- The call `strings.Split(s, "/")`: the pieces between separators, empty
pieces included. -/
def splitSep : Str → List Str
  | [] => [[]]
  | c :: cs =>
    if c = '/' then [] :: splitSep cs
    else
      match splitSep cs with
      | [] => [[c]]
      | w :: ws => (c :: w) :: ws

/-- One element processed by `filepath.Clean`; `stack` holds the elements kept
so far, the last one first. -/
def cleanStep (rooted : Bool) (stack : List Str) (c : Str) : List Str :=
  if c = [] ∨ c = dot then stack
  else if c = dotdot then
    match stack with
    | [] => if rooted then [] else [dotdot]
    | top :: rest => if top = dotdot then dotdot :: stack else rest
  else c :: stack

/-- The elements of the cleaned path, in order. -/
def cleanElems (path : Str) : List Str :=
  ((splitSep path).foldl (cleanStep (IsAbs path)) []).reverse

/-- The function `filepath.Clean`: empty and `.` elements are dropped, each
inner `..` removes the element before it, `..` at the root is dropped, and the
empty result is `.`. -/
def Clean (path : Str) : Str :=
  let out := (if IsAbs path then sep else []) ++ sep.intercalate (cleanElems path)
  if out = [] then dot else out

/-- The function `filepath.Join`: the non-empty elements joined by the
separator and cleaned; the empty string when there is none. -/
def Join (elems : List Str) : Str :=
  let ne := elems.filter (fun e => e ≠ [])
  if ne = [] then [] else Clean (sep.intercalate ne)

/-- The function `filepath.Dir`: everything up to the last separator,
cleaned. -/
def Dir (path : Str) : Str :=
  Clean (path.reverse.dropWhile (fun c => c ≠ '/')).reverse

/-- The function `filepath.Base`: the last element of the path, trailing
separators removed first; `.` for the empty path and `/` for a path of
separators only. -/
def Base (path : Str) : Str :=
  if path = [] then dot
  else
    let p := path.reverse.dropWhile (fun c => c = '/')
    let b := (p.takeWhile (fun c => c ≠ '/')).reverse
    if b = [] then sep else b

/-- The elements two paths have in common at the front are dropped. -/
def dropCommon : List Str → List Str → List Str × List Str
  | b :: bs, t :: ts => if b = t then dropCommon bs ts else (b :: bs, t :: ts)
  | bs, ts => (bs, ts)

/-- The non-empty pieces of a cleaned path. -/
def relElems (path : Str) : List Str :=
  (splitSep path).filter (fun e => e ≠ [])

/-- The function `filepath.Rel`: both paths are cleaned, their common leading
elements are dropped, and the result climbs out of what is left of the base
with `..` before it descends into what is left of the target. `none` is the
error `Rel: can't make targpath relative to basepath`. -/
def Rel (basepath targpath : Str) : Option Str :=
  let base := Clean basepath
  let targ := Clean targpath
  if targ = base then some dot
  else
    let base := if base = dot then [] else base
    if IsAbs base ≠ IsAbs targ then none
    else
      match dropCommon (relElems base) (relElems targ) with
      | ([], ts) => some (sep.intercalate ts)
      | (b :: bs, ts) =>
        if b = dotdot then none
        else some (sep.intercalate ((b :: bs).map (fun _ => dotdot) ++ ts))

/-! ## The file system -/

/-- A file system object: a regular file, a socket (which `archive/tar` cannot
store), or a directory with its named entries in the order `readDirNames`
lists them. Symbolic links are not modelled, so `os.Stat` and `os.Lstat`
agree. -/
inductive Node where
  | regular : Node
  | socket : Node
  | dir : List (Str × Node) → Node

/-- What `os.FileInfo` tells the program about an object. -/
structure FileInfo where
  isDir : Bool
  isSocket : Bool
  deriving DecidableEq, Repr

/-- The method `FileInfo.IsDir`. -/
def FileInfo.IsDir (fi : FileInfo) : Bool := fi.isDir

/-- The file information of an object. -/
def Node.info : Node → FileInfo
  | .regular => ⟨false, false⟩
  | .socket => ⟨false, true⟩
  | .dir _ => ⟨true, false⟩

/-- The error numbers path resolution can give. -/
inductive Errno where
  | ENOENT
  | ENOTDIR
  deriving DecidableEq, Repr

/-- Path resolution by the kernel: the pieces of an absolute path are followed
from the root; `stack` holds the directories entered, the current one first
(empty at the root). Every piece, the empty one after a separator included,
needs the current object to be a directory. -/
def resolveFrom (root : Node) : List Node → List Str → Except Errno Node
  | stack, [] => .ok (stack.headD root)
  | stack, c :: cs =>
    match stack.headD root with
    | .dir es =>
      if c = [] ∨ c = dot then resolveFrom root stack cs
      else if c = dotdot then resolveFrom root stack.tail cs
      else
        match es.lookup c with
        | some n => resolveFrom root (n :: stack) cs
        | none => .error .ENOENT
    | _ => .error .ENOTDIR

/-- The object a path names for a process whose working directory is `cwd`:
a relative path is resolved from `cwd`, the empty path names nothing. -/
def resolve (root : Node) (cwd : Str) (path : Str) : Except Errno Node :=
  if path = [] then .error .ENOENT
  else resolveFrom root [] (splitSep (if IsAbs path then path else cwd ++ sep ++ path))

mutual
/-- The paths `filepath.Walk` visits below and including `path`, in visiting
order, each with its file information: a directory before its entries, an
entry under the name `filepath.Join(path, name)`. -/
def Node.walkList (path : Str) : Node → List (Str × FileInfo)
  | .regular => [(path, Node.regular.info)]
  | .socket => [(path, Node.socket.info)]
  | .dir es => (path, ⟨true, false⟩) :: Node.walkEntries path es
/-- The visits of the entries of the directory `path`. -/
def Node.walkEntries (path : Str) : List (Str × Node) → List (Str × FileInfo)
  | [] => []
  | (name, n) :: rest => Node.walkList (Join [path, name]) n ++ Node.walkEntries path rest
end

/-! ## The clock -/

/-- A reading of the wall clock, by its calendar fields. -/
structure Time where
  year : Nat
  month : Nat
  day : Nat
  hour : Nat
  minute : Nat
  second : Nat
  nanosecond : Nat

/-- The decimal digit for the last digit of `n`. -/
def digitChar (n : Nat) : Char :=
  match n % 10 with
  | 0 => '0'
  | 1 => '1'
  | 2 => '2'
  | 3 => '3'
  | 4 => '4'
  | 5 => '5'
  | 6 => '6'
  | 7 => '7'
  | 8 => '8'
  | _ => '9'

/-- The last `width` decimal digits of `x`, zero padded. -/
def fixedDigits : Nat → Nat → Str
  | 0, _ => []
  | width + 1, x => fixedDigits width (x / 10) ++ [digitChar x]

/-- A number field of a time layout: `x` in decimal, zero padded to at least
`width` digits. -/
def appendInt (x width : Nat) : Str :=
  if x < 10 ^ width then fixedDigits width x else Nat.toDigits 10 x

/-- The call `t.Format("2006-01-02,15:04:05.000000000")`. -/
def Time.FormatStamp (t : Time) : Str :=
  appendInt t.year 4 ++ ['-'] ++ appendInt t.month 2 ++ ['-'] ++ appendInt t.day 2 ++ [',']
    ++ appendInt t.hour 2 ++ [':'] ++ appendInt t.minute 2 ++ [':'] ++ appendInt t.second 2
    ++ ['.'] ++ appendInt t.nanosecond 9

/-- The call `t.Format("20060102150405")`. -/
def Time.FormatCompact (t : Time) : Str :=
  appendInt t.year 4 ++ appendInt t.month 2 ++ appendInt t.day 2
    ++ appendInt t.hour 2 ++ appendInt t.minute 2 ++ appendInt t.second 2

/-- A reading whose fields fit the widths of the layout: a year of at most
four digits, two digits for month, day, hour, minute and second, nine for the
nanoseconds. Every reading of a clock set to a year before 10000 is such. -/
def Time.InRange (t : Time) : Prop :=
  t.year < 10000 ∧ t.month < 100 ∧ t.day < 100 ∧ t.hour < 100 ∧ t.minute < 100
    ∧ t.second < 100 ∧ t.nanosecond < 1000000000

instance (t : Time) : Decidable t.InRange := by
  unfold Time.InRange; infer_instance

/-! ## The data model (`types`, `handler`, `conf`) -/

/-- The errors the manager returns. -/
inductive Error where
  /-- A `*PathError` of `os.Stat` or `os.Lstat`. -/
  | path (e : Errno) (path : Str)
  /-- The text `HOME is not defined` of `os.UserHomeDir`. -/
  | noHome
  /-- The text `... is a directory not a file`. -/
  | confIsDir (path : Str)
  /-- The config file cannot be read or decoded. -/
  | confRead (path : Str)
  /-- The text `header name is already entered in the restore file`. -/
  | duplicateHeader
  /-- The text `output path ..., is also given as input path ...`. -/
  | selfRecursion (output input : Str)
  /-- The error of `tar.FileInfoHeader`. -/
  | tarHeader
  /-- The error of `filepath.Rel`. -/
  | rel (base targ : Str)
  /-- The text `no paths or tags are given for taking backup`. -/
  | noInput
  /-- The text `the output path ... is already taken as a directory`. -/
  | outputIsDir (path : Str)
  /-- The text `the given path is a directory, not a file`. -/
  | pathIsDir
  /-- The text `define a mode ...`. -/
  | noMode
  /-- An error of the archive handler. -/
  | handler (code : Nat)
  deriving DecidableEq, Repr

/-- The record `types.RestSlot`. -/
structure RestSlot where
  HeaderName : Str
  ParentPath : Str
  deriving DecidableEq, Repr

/-- The part of `tar.Header` the manager sets. -/
structure Header where
  Name : Str
  deriving DecidableEq, Repr

/-- The record `types.InputPaths`: one entry of the plan. -/
structure InputPaths where
  Header : Header
  Path : Str
  IsDir : Bool
  FileInfo : FileInfo
  deriving DecidableEq, Repr

/-- The record `InputData.BackupData`. -/
structure BackupData where
  InputPaths : List Str
  ExcludePaths : List Str
  Tags : List Str
  OutputPath : Str
  UseConf : Bool
  ConfPath : Str
  deriving DecidableEq, Repr

/-- The record `InputData.RestoreData`. -/
structure RestoreData where
  FilePath : Str
  deriving DecidableEq, Repr

/-- The record `InputData.ExtractData`. -/
structure ExtractData where
  Path : Str
  deriving DecidableEq, Repr

/-- The record `types.InputData`. -/
structure InputData where
  IsBackup : Bool
  IsRestore : Bool
  IsExtract : Bool
  TellVersion : Bool
  BackupData : BackupData
  RestoreData : RestoreData
  ExtractData : ExtractData
  deriving DecidableEq, Repr

/-- The record `types.BakJSON`: the backup config. -/
structure BakJSON where
  BackupName : Str
  BackupPaths : List Str
  Tags : List Str
  deriving DecidableEq, Repr

/-- A decoded config file: each field of `types.BakJSON` is given by the file
or left out. -/
structure BakDoc where
  BackupName : Option Str
  BackupPaths : Option (List Str)
  Tags : Option (List Str)
  deriving DecidableEq, Repr

/-- The call `json.Unmarshal(data, &cfg)`: a field the file gives is
replaced, a field it leaves out keeps its value. -/
def BakJSON.Unmarshal (cfg : BakJSON) (doc : BakDoc) : BakJSON :=
  { BackupName := doc.BackupName.getD cfg.BackupName
    BackupPaths := doc.BackupPaths.getD cfg.BackupPaths
    Tags := doc.Tags.getD cfg.Tags }

/-- An entry of the table `conf.ModesMap`. -/
structure Mode where
  Path : Str
  IsUnderHome : Bool
  deriving DecidableEq, Repr

/-- The Go map `map[string]types.RestSlot`, as its key and value pairs. -/
abbrev SlotMap := List (Str × RestSlot)

/-- The Go expression `m[key]`: the slot stored at the key, the zero slot when
there is none. -/
def SlotMap.get (m : SlotMap) (key : Str) : RestSlot :=
  (m.lookup key).getD ⟨[], []⟩

/-- The Go statement `m[key] = slot`. -/
def SlotMap.set : SlotMap → Str → RestSlot → SlotMap
  | [], key, slot => [(key, slot)]
  | (k, v) :: rest, key, slot =>
    if k = key then (key, slot) :: rest else (k, v) :: SlotMap.set rest key slot

/-- The keys of the map. -/
def SlotMap.keys (m : SlotMap) : List Str := m.map Prod.fst

/-- The key is taken: the stored slot has a non-empty field. -/
def SlotMap.Occupied (m : SlotMap) (key : Str) : Prop :=
  (m.get key).ParentPath ≠ [] ∨ (m.get key).HeaderName ≠ []

instance (m : SlotMap) (key : Str) : Decidable (m.Occupied key) := by
  unfold SlotMap.Occupied; infer_instance

/-- The record `Handler.Restore.JSONFile`: the restore file. -/
structure RestJSON where
  Slots : SlotMap
  deriving DecidableEq, Repr

/-- The record `Handler.Restore`. -/
structure Restore where
  JSONFile : RestJSON
  Path : Str
  deriving DecidableEq, Repr

/-- The record `Handler.Output`. -/
structure Output where
  Path : Str
  deriving DecidableEq, Repr

/-- The fields of `handler.Handler` the manager reads and writes. -/
structure Handler where
  InputFiles : List InputPaths
  Restore : Restore
  Output : Output
  HomeDir : Str
  CWD : Str
  deriving DecidableEq, Repr

/-- The record `Manager`. -/
structure Manager where
  InputData : InputData
  BackupConfig : BakJSON
  HomeDir : Str
  CWD : Str
  Handler : Handler
  deriving DecidableEq, Repr

/-- Everything outside the manager: the file system, the process environment,
the clock, the decoded content of config files, the constants of package
`conf` and the operations of the archive handler. -/
structure World where
  root : Node
  cwd : Str
  HOME : Str
  clock : Nat → Time
  confFile : Str → Option BakDoc
  ModesMap : Str → Mode
  Ext : Str
  Pack : Handler → Option Error
  UnPack : Handler → Option Error
  Extract : Handler → Option Error

/-- The manager together with the number of clock readings taken so far. -/
structure State where
  man : Manager
  tick : Nat
  deriving DecidableEq, Repr

/-- The function `os.Lstat`. -/
def Lstat (w : World) (path : Str) : Except Errno FileInfo :=
  match resolve w.root w.cwd path with
  | .ok n => .ok n.info
  | .error e => .error e

/-- The function `os.Stat`, which differs from `os.Lstat` on symbolic links
only. -/
def Stat (w : World) (path : Str) : Except Errno FileInfo := Lstat w path

/-- The loop of `filepath.Walk` over the paths to visit: the callback runs on
each in turn and the first error ends the walk. -/
def walkLoop {σ : Type} (fn : Str → Option FileInfo → Option Error → σ → Option Error × σ) :
    List (Str × FileInfo) → σ → Option Error × σ
  | [], s => (none, s)
  | (p, fi) :: rest, s =>
    match fn p (some fi) none s with
    | (some e, s1) => (some e, s1)
    | (none, s1) => walkLoop fn rest s1

/-- The function `filepath.Walk`: when the root cannot be examined the callback
gets the error, otherwise it is run over the tree below the root. -/
def Walk {σ : Type} (w : World) (root : Str)
    (fn : Str → Option FileInfo → Option Error → σ → Option Error × σ) (s : σ) :
    Option Error × σ :=
  match resolve w.root w.cwd root with
  | .error e => fn root none (some (.path e root)) s
  | .ok n => walkLoop fn (n.walkList root) s

/-! ## The manager (`Manager.go`) -/

/-- The placeholder written for the home directory. -/
def homeToken : Str := "#/HomeDir#/".toList

/-- The function `NewManager`: the input is stored, the slot map is made
empty, and the home and working directories are read from the system. -/
def NewManager (w : World) (inputData : InputData) : Except Error Manager :=
  if w.HOME = [] then .error .noHome
  else
    .ok {
      InputData := inputData
      BackupConfig := ⟨[], [], []⟩
      HomeDir := w.HOME
      CWD := w.cwd
      Handler := {
        InputFiles := []
        Restore := ⟨⟨[]⟩, []⟩
        Output := ⟨[]⟩
        HomeDir := w.HOME
        CWD := w.cwd } }

/-- Modelled from the spec: the method `convertPathToAbs`, which is defined in
a file of package `manager` that is not part of the sources at hand. A
relative path is resolved against the working directory of the invocation, any
other path is returned unchanged. -/
def convertPathToAbs (man : Manager) (path : Str) : Str :=
  if IsAbs path then path else Join [man.CWD, path]

/-- The method `readBackupConfig`: the config path is made absolute and
examined, a directory is refused, and the decoded content of the file is
unmarshalled into the backup config. -/
def readBackupConfig (w : World) (man : Manager) : Option Error × Manager :=
  let confPath := convertPathToAbs man man.InputData.BackupData.ConfPath
  let man1 : Manager :=
    { man with InputData := { man.InputData with
        BackupData := { man.InputData.BackupData with ConfPath := confPath } } }
  match Stat w confPath with
  | .error e => (some (.path e confPath), man1)
  | .ok info =>
    if info.IsDir then (some (.confIsDir confPath), man1)
    else
      match w.confFile confPath with
      | none => (some (.confRead confPath), man1)
      | some doc => (none, { man1 with BackupConfig := man1.BackupConfig.Unmarshal doc })

/-- The manager with the slot map of its restore file replaced. -/
def Manager.setSlots (man : Manager) (slots : SlotMap) : Manager :=
  { man with Handler := { man.Handler with
      Restore := { man.Handler.Restore with JSONFile := { Slots := slots } } } }

/-- The method `restFileAddEntries`: the home directory in the parent path is
replaced by the placeholder; a key whose stored slot has a non-empty field is
a duplicate; otherwise the slot is stored at the key. -/
def restFileAddEntries (man : Manager) (key : Str) (slot : RestSlot) : Option Error × Manager :=
  let slot1 : RestSlot := { slot with ParentPath := Replace1 slot.ParentPath man.HomeDir homeToken }
  if (man.Handler.Restore.JSONFile.Slots.get key).ParentPath ≠ []
      ∨ (man.Handler.Restore.JSONFile.Slots.get key).HeaderName ≠ [] then
    (some .duplicateHeader, man)
  else
    (none, man.setSlots (man.Handler.Restore.JSONFile.Slots.set key slot1))

/-- The name `addSlotsToHandler` gives the header, and the tick after it: the
slot's header name followed by the time stamp, or a time stamp read anew when
that is longer than 255. -/
def headerName (w : World) (tick : Nat) (slot : RestSlot) : Str × Nat :=
  let name := slot.HeaderName ++ (w.clock tick).FormatStamp
  if name.length > 255 then ((w.clock (tick + 1)).FormatStamp, tick + 2)
  else (name, tick + 1)

/-- The method `addSlotsToHandler`: the output path is refused as an input;
the header is made from the file information and named; the entry is appended
to the input files; the slot is entered in the restore file under the name. -/
def addSlotsToHandler (w : World) (st : State) (slot : RestSlot) (path : Str)
    (fileInfo : FileInfo) : Option Error × State :=
  if path = st.man.Handler.Output.Path then
    (some (.selfRecursion st.man.Handler.Output.Path path), st)
  else if fileInfo.isSocket then (some .tarHeader, st)
  else
    let named := headerName w st.tick slot
    let entry : InputPaths :=
      { Header := ⟨named.1⟩, Path := path, IsDir := fileInfo.IsDir, FileInfo := fileInfo }
    let man1 : Manager :=
      { st.man with Handler := { st.man.Handler with
          InputFiles := st.man.Handler.InputFiles ++ [entry] } }
    match restFileAddEntries man1 named.1 slot with
    | (err, man2) => (err, ⟨man2, named.2⟩)

/-- The slot the file branch of `addPathToHandler` builds for its root. -/
def fileSlot (absPath : Str) : RestSlot :=
  { HeaderName := Base absPath, ParentPath := TrimSuffix absPath (Base absPath) }

/-- The slot the walk callback of `addPathToHandler` builds for a visited
path, `none` when `filepath.Rel` fails. -/
def walkSlot (absPath path : Str) : Option RestSlot :=
  match Rel (Dir absPath) path with
  | none => none
  | some headerName => some { HeaderName := headerName, ParentPath := TrimSuffix path headerName }

/-- The callback `addPathToHandler` hands to `filepath.Walk`. -/
def walkFn (w : World) (absPath : Str) (path : Str) (_info : Option FileInfo)
    (err : Option Error) (st : State) : Option Error × State :=
  match err with
  | some e => (some e, st)
  | none =>
    match Lstat w path with
    | .error e => (some (.path e path), st)
    | .ok fileInfo =>
      match walkSlot absPath path with
      | none => (some (.rel (Dir absPath) path), st)
      | some restFileSlot => addSlotsToHandler w st restFileSlot path fileInfo

/-- The method `addPathToHandler`: an excluded path is skipped; a directory is
walked and every visited path added; a file is added by itself. -/
def addPathToHandler (w : World) (st : State) (path : Str) : Option Error × State :=
  let absPath := convertPathToAbs st.man path
  if absPath ∈ st.man.InputData.BackupData.ExcludePaths then (none, st)
  else
    match Lstat w absPath with
    | .error e => (some (.path e absPath), st)
    | .ok info =>
      if info.IsDir then Walk w absPath (walkFn w absPath) st
      else addSlotsToHandler w st (fileSlot absPath) absPath info

/-- The loop `for _, path := range paths` around `addPathToHandler`, ended by
the first error. -/
def addPaths (w : World) : State → List Str → Option Error × State
  | st, [] => (none, st)
  | st, path :: rest =>
    match addPathToHandler w st path with
    | (some e, st1) => (some e, st1)
    | (none, st1) => addPaths w st1 rest

/-- The path `addTags` adds for a tag. -/
def tagPath (w : World) (man : Manager) (tag : Str) : Str :=
  if (w.ModesMap tag).IsUnderHome then Join [man.HomeDir, (w.ModesMap tag).Path]
  else (w.ModesMap tag).Path

/-- The method `addTags`. -/
def addTags (w : World) : State → List Str → Option Error × State
  | st, [] => (none, st)
  | st, tag :: rest =>
    match addPathToHandler w st (tagPath w st.man tag) with
    | (some e, st1) => (some e, st1)
    | (none, st1) => addTags w st1 rest

/-- The method `evalBackupConfig`. -/
def evalBackupConfig (w : World) (st : State) : Option Error × State :=
  let name :=
    if st.man.BackupConfig.BackupName.length > 0 then st.man.BackupConfig.BackupName
    else TrimSuffix (Base st.man.InputData.BackupData.ConfPath) ".json".toList ++ w.Ext
  let st1 : State :=
    { st with man := { st.man with BackupConfig := { st.man.BackupConfig with BackupName := name } } }
  match addPaths w st1 st1.man.BackupConfig.BackupPaths with
  | (some e, st2) => (some e, st2)
  | (none, st2) => addTags w st2 st2.man.BackupConfig.Tags

/-- The method `evalInputFilePath`. -/
def evalInputFilePath (w : World) (st : State) : Option Error × State :=
  if st.man.InputData.BackupData.InputPaths.length > 0 then
    addPaths w st st.man.InputData.BackupData.InputPaths
  else if !st.man.InputData.BackupData.UseConf
      && !(decide (st.man.InputData.BackupData.Tags.length > 0)) then
    (some .noInput, st)
  else (none, st)

/-- The method `evalTags`. -/
def evalTags (w : World) (st : State) : Option Error × State :=
  if st.man.InputData.BackupData.Tags.length > 0 then
    addTags w st st.man.InputData.BackupData.Tags
  else if !st.man.InputData.BackupData.UseConf
      && !(decide (st.man.InputData.BackupData.InputPaths.length > 0)) then
    (some .noInput, st)
  else (none, st)

/-- The manager with the output path of its handler set. -/
def Manager.setOutput (man : Manager) (path : Str) : Manager :=
  { man with Handler := { man.Handler with Output := { Path := path } } }

/-- What both branches of `evalOutputFiles` do with a candidate output path:
a path at which nothing exists is taken, another failure of `os.Stat` is
returned, a directory is refused, an existing file is taken. -/
def takeOutput (w : World) (st : State) (absPath : Str) : Option Error × State :=
  match Stat w absPath with
  | .error .ENOENT => (none, { st with man := st.man.setOutput absPath })
  | .error e => (some (.path e absPath), st)
  | .ok info =>
    if info.IsDir then (some (.outputIsDir absPath), st)
    else (none, { st with man := st.man.setOutput absPath })

/-- The method `evalOutputFiles`. -/
def evalOutputFiles (w : World) (st : State) : Option Error × State :=
  if st.man.InputData.BackupData.OutputPath.length > 0 then
    takeOutput w st (convertPathToAbs st.man st.man.InputData.BackupData.OutputPath)
  else if !st.man.InputData.BackupData.UseConf
      || (st.man.InputData.BackupData.UseConf
          && decide (st.man.BackupConfig.BackupName.length = 0)) then
    (none, { man := st.man.setOutput
               (Join [st.man.CWD, "Backup".toList ++ (w.clock st.tick).FormatCompact] ++ w.Ext),
             tick := st.tick + 1 })
  else
    takeOutput w st (convertPathToAbs st.man st.man.BackupConfig.BackupName)

/-- The callback `evalExcludePaths` hands to `filepath.Walk`: a visited path is
appended to the output, an error is passed over. -/
def excludeFn (path : Str) (_info : Option FileInfo) (err : Option Error)
    (outPaths : List Str) : Option Error × List Str :=
  match err with
  | some _ => (none, outPaths)
  | none => (none, outPaths ++ [path])

/-- The loop of `evalExcludePaths` over the paths the user gave. -/
def excludeLoop (w : World) (man : Manager) : List Str → List Str → List Str
  | [], outPaths => outPaths
  | path :: rest, outPaths =>
    let absPath := convertPathToAbs man path
    match Stat w absPath with
    | .error _ => excludeLoop w man rest outPaths
    | .ok info =>
      if info.IsDir then excludeLoop w man rest (Walk w path excludeFn outPaths).2
      else excludeLoop w man rest (outPaths ++ [absPath])

/-- The method `evalExcludePaths`. -/
def evalExcludePaths (w : World) (man : Manager) : Manager :=
  { man with InputData := { man.InputData with
      BackupData := { man.InputData.BackupData with
        ExcludePaths := excludeLoop w man man.InputData.BackupData.ExcludePaths [] } } }

/-- The method `evalPath`. -/
def evalPath (w : World) (man : Manager) (path : Str) : Option Error × Manager :=
  let path := convertPathToAbs man path
  match Stat w path with
  | .error e => (some (.path e path), man)
  | .ok fileInfo =>
    if fileInfo.IsDir then (some .pathIsDir, man)
    else (none, { man with Handler := { man.Handler with
      Restore := { man.Handler.Restore with Path := path } } })

/-- The operations `Manage` can hand the plan to. -/
inductive Call where
  | Pack
  | UnPack
  | Extract
  | PrintVersion
  deriving DecidableEq, Repr

/-- What a run of `Manage` comes to: the error returned, the final state and
the operation that was invoked, if any. -/
structure Outcome where
  err : Option Error
  st : State
  invoked : Option Call
  deriving DecidableEq, Repr

/-- The plan-building steps of the backup mode after the output path and the
exclusions: the config file when it is used, the input paths, the tags. -/
def buildPlan (w : World) (st : State) : Option Error × State :=
  let afterConf : Option Error × State :=
    if st.man.InputData.BackupData.UseConf then
      match readBackupConfig w st.man with
      | (some e, man1) => (some e, { st with man := man1 })
      | (none, man1) => evalBackupConfig w { st with man := man1 }
    else (none, st)
  match afterConf with
  | (some e, st1) => (some e, st1)
  | (none, st1) =>
    match evalInputFilePath w st1 with
    | (some e, st2) => (some e, st2)
    | (none, st2) => evalTags w st2

/-- The method `Manage`. -/
def Manage (w : World) (st : State) : Outcome :=
  if st.man.InputData.IsBackup then
    match evalOutputFiles w st with
    | (some e, st1) => ⟨some e, st1, none⟩
    | (none, st1) =>
      match buildPlan w { st1 with man := evalExcludePaths w st1.man } with
      | (some e, st2) => ⟨some e, st2, none⟩
      | (none, st2) => ⟨w.Pack st2.man.Handler, st2, some .Pack⟩
  else if st.man.InputData.IsRestore then
    match evalPath w st.man st.man.InputData.RestoreData.FilePath with
    | (some e, man1) => ⟨some e, { st with man := man1 }, none⟩
    | (none, man1) => ⟨w.UnPack man1.Handler, { st with man := man1 }, some .UnPack⟩
  else if st.man.InputData.IsExtract then
    match evalPath w st.man st.man.InputData.ExtractData.Path with
    | (some e, man1) => ⟨some e, { st with man := man1 }, none⟩
    | (none, man1) => ⟨w.Extract man1.Handler, { st with man := man1 }, some .Extract⟩
  else if st.man.InputData.TellVersion then ⟨none, st, some .PrintVersion⟩
  else ⟨some .noMode, st, none⟩

/-! ## Plans -/

/-- One plan-building step: a call of `addPathToHandler` or of `addTags`. -/
inductive Step where
  | path (p : Str)
  | tags (ts : List Str)

/-- The step is run. -/
def runStep (w : World) (st : State) : Step → Option Error × State
  | .path p => addPathToHandler w st p
  | .tags ts => addTags w st ts

/-- The steps are run in turn, up to the first one that returns an error. -/
def runSteps (w : World) : State → List Step → Option Error × State
  | st, [] => (none, st)
  | st, s :: rest =>
    match runStep w st s with
    | (some e, st1) => (some e, st1)
    | (none, st1) => runSteps w st1 rest

/-- The header names of the entries, in order. -/
def Handler.names (h : Handler) : List Str := h.InputFiles.map (fun e => e.Header.Name)

/-- The invariant of a plan under construction: the header names of the
entries are the keys of the restore mapping, no key is repeated, and every
stored slot has a non-empty field. -/
def PlanInv (h : Handler) : Prop :=
  h.names = h.Restore.JSONFile.Slots.keys ∧ h.Restore.JSONFile.Slots.keys.Nodup ∧
    ∀ kv ∈ h.Restore.JSONFile.Slots, kv.2.ParentPath ≠ [] ∨ kv.2.HeaderName ≠ []

/-- The root `path` leads `addPathToHandler` to the output path: it is not
excluded, and its absolute path is the output path or names a directory under
which the walk visits the output path. -/
def hitsOutput (w : World) (man : Manager) (path : Str) : Bool :=
  let absPath := convertPathToAbs man path
  !(decide (absPath ∈ man.InputData.BackupData.ExcludePaths)) &&
    (decide (absPath = man.Handler.Output.Path) ||
      match resolve w.root w.cwd absPath with
      | .ok n => n.info.isDir &&
          decide (man.Handler.Output.Path ∈ (n.walkList absPath).map Prod.fst)
      | .error _ => false)

/-- What the plan-building steps read of the manager and never write: the
output path, the exclusion set, the working directory and the input paths. -/
def Manager.setting (man : Manager) : Str × List Str × Str × List Str :=
  (man.Handler.Output.Path, man.InputData.BackupData.ExcludePaths, man.CWD,
    man.InputData.BackupData.InputPaths)

/-! ## Well-formed trees and clean paths -/

/-- A file name: not empty, without a separator, and neither `.` nor `..`. -/
def GoodName (c : Str) : Prop := c ≠ [] ∧ '/' ∉ c ∧ c ≠ dot ∧ c ≠ dotdot

instance (c : Str) : Decidable (GoodName c) := by
  unfold GoodName; infer_instance

/-- The absolute path with the given elements: each one after a separator. -/
def slashed : List Str → Str
  | [] => []
  | c :: cs => '/' :: c ++ slashed cs

/-- The parent directory of the path with elements `cs` and a last element. -/
def parentOf (cs : List Str) : Str := if cs = [] then sep else slashed cs

mutual
/-- Every entry of every directory of the tree has a file name. -/
def Node.wf : Node → Bool
  | .regular => true
  | .socket => true
  | .dir es => Node.wfEntries es
/-- Every entry of the list, and of the trees below, has a file name. -/
def Node.wfEntries : List (Str × Node) → Bool
  | [] => true
  | (name, n) :: rest => decide (GoodName name) && Node.wf n && Node.wfEntries rest
end

/-! ## The scenarios of the specification -/

namespace Example

/-- A file name of 230 characters. -/
def longName : Str := List.replicate 230 'x'

/-- The tree `/home/u` with `notes.txt`, a file with a long name, and `proj`,
which holds `a.txt` and `build/out.bin`. -/
def tree : Node :=
  .dir [("home".toList, .dir [("u".toList, .dir [
    ("notes.txt".toList, .regular),
    (longName, .regular),
    ("proj".toList, .dir [
      ("a.txt".toList, .regular),
      ("build".toList, .dir [("out.bin".toList, .regular)])])])])]

/-- A clock whose readings differ in the nanoseconds only. -/
def clock (n : Nat) : Time := ⟨2024, 5, 17, 9, 30, 0, n⟩

/-- The world of the scenarios: home `/home/u`, working directory `cwd`, a
config file with decoded content `conf` at every path, no tags, extension
`.cb`, and a handler that never fails. -/
def world (cwd : Str) (conf : BakDoc) : World :=
  { root := tree
    cwd := cwd
    HOME := "/home/u".toList
    clock := clock
    confFile := fun _ => some conf
    ModesMap := fun _ => ⟨[], false⟩
    Ext := ".cb".toList
    Pack := fun _ => none
    UnPack := fun _ => none
    Extract := fun _ => none }

/-- A backup request with the given input paths, exclude paths and config
usage, no tags and no output path; the config file is `/home/u/notes.txt`. -/
def input (inputPaths excludePaths : List Str) (useConf : Bool) : InputData :=
  { IsBackup := true
    IsRestore := false
    IsExtract := false
    TellVersion := false
    BackupData :=
      { InputPaths := inputPaths
        ExcludePaths := excludePaths
        Tags := []
        OutputPath := []
        UseConf := useConf
        ConfPath := "/home/u/notes.txt".toList }
    RestoreData := ⟨[]⟩
    ExtractData := ⟨[]⟩ }

/-- The manager `NewManager` creates for a request in `world cwd conf`. -/
def manager (cwd : Str) (inputData : InputData) : Manager :=
  { InputData := inputData
    BackupConfig := ⟨[], [], []⟩
    HomeDir := "/home/u".toList
    CWD := cwd
    Handler :=
      { InputFiles := []
        Restore := ⟨⟨[]⟩, []⟩
        Output := ⟨[]⟩
        HomeDir := "/home/u".toList
        CWD := cwd } }

/-- A config file that names the backup `mybak.cb` and lists nothing. -/
def namedConf : BakDoc := ⟨some "mybak.cb".toList, some [], some []⟩

/-- A config file that gives no backup name and lists no paths and no tags. -/
def emptyConf : BakDoc := ⟨none, some [], some []⟩

/-- The world of the scenarios with a clock that stands still. -/
def frozenWorld : World :=
  { world "/home/u".toList emptyConf with clock := fun _ => clock 0 }

/-- A request whose output path is the existing file `/home/u/notes.txt` and
whose input path `/home/u/./notes.txt` is another spelling of it. -/
def spelledInput : InputData :=
  { input ["/home/u/./notes.txt".toList] [] false with
    BackupData :=
      { (input ["/home/u/./notes.txt".toList] [] false).BackupData with
        OutputPath := "/home/u/notes.txt".toList } }

/-- A request whose output path `/home/u/proj/./a.txt` is a spelling of the
existing file `/home/u/proj/a.txt`, which lies under its input path
`/home/u/proj`. -/
def spelledDirInput : InputData :=
  { input ["/home/u/proj".toList] [] false with
    BackupData :=
      { (input ["/home/u/proj".toList] [] false).BackupData with
        OutputPath := "/home/u/proj/./a.txt".toList } }

/-- The manager of the scenarios with the home directory `/root`, which occurs
in no path of the tree. -/
def rootManager : Manager :=
  { manager "/home/u".toList (input [] [] false) with HomeDir := "/root".toList }

/-- A request whose output path is the existing file `/home/u/proj/a.txt`,
which lies under its input path `/home/u/proj`. -/
def selfInput : InputData :=
  { input ["/home/u/proj".toList] [] false with
    BackupData :=
      { (input ["/home/u/proj".toList] [] false).BackupData with
        OutputPath := "/home/u/proj/a.txt".toList } }

end Example


set_option maxRecDepth 8192
set_option maxHeartbeats 1600000

/-! ## Strings: basic facts -/

theorem TrimSuffix_append (a b : Str) : TrimSuffix (a ++ b) b = a := by
  have h : b.isSuffixOf (a ++ b) = true := by
    rw [List.isSuffixOf_iff_suffix]; exact List.suffix_append a b
  simp [TrimSuffix, h]

theorem TrimSuffix_nil (s : Str) : TrimSuffix s [] = s := by
  simpa using TrimSuffix_append s []

theorem Replace1_at_start (old new rest : Str) : Replace1 (old ++ rest) old new = new ++ rest := by
  have h : old.isPrefixOf (old ++ rest) = true := by
    rw [ List.isPrefixOf_iff_prefix]; exact List.prefix_append old rest
  unfold Replace1
  simp [h]

theorem Replace1_ne_nil (s old new : Str) (hs : s ≠ []) (hn : new ≠ []) :
    Replace1 s old new ≠ [] := by
  unfold Replace1
  split
  · simp [hn]
  · cases s with
    | nil => exact absurd rfl hs
    | cons c cs => simp

theorem ite_nil_dot_ne_nil (out : Str) : (if out = [] then dot else out) ≠ [] := by
  split
  · simp [dot]
  · assumption

theorem Clean_ne_nil (path : Str) : Clean path ≠ [] :=
  ite_nil_dot_ne_nil _

theorem Base_ne_nil (path : Str) : Base path ≠ [] := by
  unfold Base
  simp only
  split
  · simp [dot]
  · split
    · simp [sep]
    · assumption

theorem Base_dir_name (d name : Str) (hne : name ≠ []) (hs : '/' ∉ name) :
    Base (d ++ '/' :: name) = name := by
  have hrev : ∀ c ∈ name.reverse, c ≠ '/' := by
    intro c hc h; subst h; exact hs (List.mem_reverse.mp hc)
  have h1 : (d ++ '/' :: name).reverse = name.reverse ++ '/' :: d.reverse := by simp
  have hne2 : name.reverse ≠ [] := by simpa using hne
  have hdrop : (name.reverse ++ '/' :: d.reverse).dropWhile (fun c => decide (c = '/'))
      = name.reverse ++ '/' :: d.reverse := by
    cases hr : name.reverse with
    | nil => exact absurd hr hne2
    | cons c cs =>
      have : c ≠ '/' := hrev c (by simp [hr])
      simp [List.dropWhile, this]
  have htake : (name.reverse ++ '/' :: d.reverse).takeWhile (fun c => decide (c ≠ '/'))
      = name.reverse := by
    rw [List.takeWhile_append_of_pos]
    · simp [List.takeWhile]
    · intro c hc; simpa using hrev c hc
  unfold Base
  simp only [h1, hdrop, htake, List.reverse_reverse]
  simp [hne]

/-! ## The clock: the width of a time stamp -/

theorem fixedDigits_length (width x : Nat) : (fixedDigits width x).length = width := by
  induction width generalizing x with
  | zero => rfl
  | succ n ih => simp [fixedDigits, ih]

theorem appendInt_length (x width : Nat) (h : x < 10 ^ width) :
    (appendInt x width).length = width := by
  simp [appendInt, h, fixedDigits_length]

theorem FormatStamp_length (t : Time) (h : t.InRange) : t.FormatStamp.length = 29 := by
  obtain ⟨hy, hmo, hd, hh, hmi, hs, hn⟩ := h
  simp only [Time.FormatStamp, List.length_append, List.length_singleton]
  rw [appendInt_length _ 4 (by omega), appendInt_length _ 2 (by omega),
    appendInt_length _ 2 (by omega), appendInt_length _ 2 (by omega),
    appendInt_length _ 2 (by omega), appendInt_length _ 2 (by omega),
    appendInt_length _ 9 (by omega)]

/-! ## The slot map -/

theorem SlotMap.lookup_set_self (m : SlotMap) (key : Str) (slot : RestSlot) :
    (SlotMap.set m key slot).lookup key = some slot := by
  induction m with
  | nil => simp [SlotMap.set, List.lookup]
  | cons kv rest ih =>
    obtain ⟨k, v⟩ := kv
    by_cases h : k = key
    · simp [SlotMap.set, h, List.lookup]
    · have h2 : (key == k) = false := by simpa using fun e => h e.symm
      simp [SlotMap.set, h, List.lookup, h2, ih]

theorem SlotMap.set_of_not_mem (m : SlotMap) (key : Str) (slot : RestSlot)
    (h : key ∉ SlotMap.keys m) : SlotMap.set m key slot = m ++ [(key, slot)] := by
  induction m with
  | nil => rfl
  | cons kv rest ih =>
    obtain ⟨k, v⟩ := kv
    have hk : k ≠ key := by
      intro e; apply h; rw [e]; exact List.mem_cons_self _ _
    have hr : key ∉ SlotMap.keys rest := by
      intro e; apply h; exact List.mem_cons_of_mem _ e
    simp [SlotMap.set, hk, ih hr]

theorem SlotMap.get_of_not_mem (m : SlotMap) (key : Str) (h : key ∉ SlotMap.keys m) :
    SlotMap.get m key = ⟨[], []⟩ := by
  have : m.lookup key = none := by
    rw [List.lookup_eq_none_iff]
    intro p hp
    have : key ≠ p.1 := by
      intro e; apply h; rw [e]
      exact List.mem_map_of_mem Prod.fst hp
    simpa using this
  simp [SlotMap.get, this]

theorem SlotMap.get_of_mem (m : SlotMap) (key : Str) (h : key ∈ SlotMap.keys m) :
    ∃ v, (key, v) ∈ m ∧ SlotMap.get m key = v := by
  induction m with
  | nil => simp [SlotMap.keys] at h
  | cons kv rest ih =>
    obtain ⟨k, v⟩ := kv
    by_cases hk : key = k
    · subst hk
      exact ⟨v, List.mem_cons_self _ _, by simp [SlotMap.get, List.lookup]⟩
    · have hr : key ∈ SlotMap.keys rest := by
        simp only [SlotMap.keys, List.map_cons, List.mem_cons] at h
        rcases h with h | h
        · exact absurd h hk
        · exact h
      obtain ⟨v1, hv1, hg⟩ := ih hr
      refine ⟨v1, List.mem_cons_of_mem _ hv1, ?_⟩
      have h2 : (key == k) = false := by simpa using hk
      simpa [SlotMap.get, List.lookup, h2] using hg

/-! ## Slot insertion (C2) -/

/-- C2, as the code has it: when the slot stored at the key has a non-empty
parent path or a non-empty header name, `restFileAddEntries` returns the
duplicate-header error and leaves the manager, the restore mapping with it,
unchanged. -/
theorem restFileAddEntries_occupied (man : Manager) (key : Str) (slot : RestSlot)
    (h : (man.Handler.Restore.JSONFile.Slots.get key).ParentPath ≠ []
      ∨ (man.Handler.Restore.JSONFile.Slots.get key).HeaderName ≠ []) :
    restFileAddEntries man key slot = (some .duplicateHeader, man) := by
  unfold restFileAddEntries
  simp only
  rw [if_pos h]

/-- Witness for C2: a key that holds the slot of `notes.txt` refuses a second
slot. -/
theorem restFileAddEntries_occupied_witness :
    restFileAddEntries
        (restFileAddEntries (Example.manager "/home/u".toList (Example.input [] [] false))
          "k".toList ⟨"notes.txt".toList, "/home/u/".toList⟩).2
        "k".toList ⟨"a.txt".toList, "/data/".toList⟩
      = (some .duplicateHeader,
          (restFileAddEntries (Example.manager "/home/u".toList (Example.input [] [] false))
            "k".toList ⟨"notes.txt".toList, "/home/u/".toList⟩).2) :=
  restFileAddEntries_occupied _ _ _ (by decide)

/-- C2 fails as stated: a slot with both fields empty is stored by a
successful call, and the next call at the same key succeeds too and replaces
it. -/
theorem restFileAddEntries_overwrites_empty_slot :
    restFileAddEntries (Example.manager "/home/u".toList (Example.input [] [] false))
        "k".toList ⟨[], []⟩
      = (none, (Example.manager "/home/u".toList (Example.input [] [] false)).setSlots
          [("k".toList, ⟨[], []⟩)]) ∧
    restFileAddEntries
        ((Example.manager "/home/u".toList (Example.input [] [] false)).setSlots
          [("k".toList, ⟨[], []⟩)])
        "k".toList ⟨"a.txt".toList, "/data/".toList⟩
      = (none, (Example.manager "/home/u".toList (Example.input [] [] false)).setSlots
          [("k".toList, ⟨"a.txt".toList, "/data/".toList⟩)]) := by
  constructor <;> decide

/-! ## The header name (C10) -/

theorem headerName_fst (w : World) (tick : Nat) (slot : RestSlot) :
    (headerName w tick slot).1
      = if (slot.HeaderName ++ (w.clock tick).FormatStamp).length ≤ 255
        then slot.HeaderName ++ (w.clock tick).FormatStamp
        else (w.clock (tick + 1)).FormatStamp := by
  unfold headerName
  simp only
  by_cases h : (slot.HeaderName ++ (w.clock tick).FormatStamp).length ≤ 255
  · rw [if_pos h, if_neg (by omega)]
  · rw [if_neg h, if_pos (by omega)]

theorem addSlotsToHandler_eq (w : World) (st : State) (slot : RestSlot) (path : Str)
    (fileInfo : FileInfo) (ho : path ≠ st.man.Handler.Output.Path)
    (hs : fileInfo.isSocket = false) :
    addSlotsToHandler w st slot path fileInfo
      = if st.man.Handler.Restore.JSONFile.Slots.Occupied (headerName w st.tick slot).1 then
          (some .duplicateHeader,
            ⟨{ st.man with Handler := { st.man.Handler with
                InputFiles := st.man.Handler.InputFiles
                  ++ [⟨⟨(headerName w st.tick slot).1⟩, path, fileInfo.IsDir, fileInfo⟩] } },
             (headerName w st.tick slot).2⟩)
        else
          (none,
            ⟨({ st.man with Handler := { st.man.Handler with
                InputFiles := st.man.Handler.InputFiles
                  ++ [⟨⟨(headerName w st.tick slot).1⟩, path, fileInfo.IsDir, fileInfo⟩] } }
                : Manager).setSlots
                (st.man.Handler.Restore.JSONFile.Slots.set (headerName w st.tick slot).1
                  { slot with
                    ParentPath := Replace1 slot.ParentPath st.man.HomeDir homeToken }),
             (headerName w st.tick slot).2⟩) := by
  unfold addSlotsToHandler restFileAddEntries SlotMap.Occupied
  rw [if_neg ho]
  simp only [hs, Bool.false_eq_true, if_false]
  split <;> rfl

theorem addSlotsToHandler_files (w : World) (st : State) (slot : RestSlot) (path : Str)
    (fileInfo : FileInfo) (ho : path ≠ st.man.Handler.Output.Path)
    (hs : fileInfo.isSocket = false) :
    (addSlotsToHandler w st slot path fileInfo).2.man.Handler.InputFiles
      = st.man.Handler.InputFiles
          ++ [⟨⟨(headerName w st.tick slot).1⟩, path, fileInfo.IsDir, fileInfo⟩] := by
  rw [addSlotsToHandler_eq w st slot path fileInfo ho hs]
  split <;> rfl

theorem addSlotsToHandler_slots (w : World) (st : State) (slot : RestSlot) (path : Str)
    (fileInfo : FileInfo) (ho : path ≠ st.man.Handler.Output.Path)
    (hs : fileInfo.isSocket = false)
    (he : (addSlotsToHandler w st slot path fileInfo).1 = none) :
    (addSlotsToHandler w st slot path fileInfo).2.man.Handler.Restore.JSONFile.Slots
      = st.man.Handler.Restore.JSONFile.Slots.set (headerName w st.tick slot).1
          { slot with ParentPath := Replace1 slot.ParentPath st.man.HomeDir homeToken } := by
  rw [addSlotsToHandler_eq w st slot path fileInfo ho hs] at he ⊢
  split
  · rename_i h; rw [if_pos h] at he; simp at he
  · rfl

/-- C10: when the output path is not the input and the header can be made,
`addSlotsToHandler` appends one entry whose header name is the slot's header
name followed by the time stamp of 29 characters when that is at most 255
long, and a time stamp alone (read anew) when it is longer; the slot is stored
under that same name when the call succeeds; the name is at most 255 long. -/
theorem addSlotsToHandler_headerName (w : World) (st : State) (slot : RestSlot) (path : Str)
    (fileInfo : FileInfo) (ho : path ≠ st.man.Handler.Output.Path)
    (hs : fileInfo.isSocket = false)
    (h0 : (w.clock st.tick).InRange) (h1 : (w.clock (st.tick + 1)).InRange) :
    (w.clock st.tick).FormatStamp.length = 29 ∧
    (w.clock (st.tick + 1)).FormatStamp.length = 29 ∧
    (∃ name : Str,
      name = (if (slot.HeaderName ++ (w.clock st.tick).FormatStamp).length ≤ 255
        then slot.HeaderName ++ (w.clock st.tick).FormatStamp
        else (w.clock (st.tick + 1)).FormatStamp) ∧
      name.length ≤ 255 ∧
      (addSlotsToHandler w st slot path fileInfo).2.man.Handler.InputFiles
        = st.man.Handler.InputFiles ++ [⟨⟨name⟩, path, fileInfo.IsDir, fileInfo⟩] ∧
      ((addSlotsToHandler w st slot path fileInfo).1 = none →
        (addSlotsToHandler w st slot path fileInfo).2.man.Handler.Restore.JSONFile.Slots.lookup name
          = some { slot with
              ParentPath := Replace1 slot.ParentPath st.man.HomeDir homeToken })) := by
  have l0 := FormatStamp_length _ h0
  have l1 := FormatStamp_length _ h1
  refine ⟨l0, l1, _, rfl, ?_, ?_, ?_⟩
  · split
    · assumption
    · omega
  · rw [addSlotsToHandler_files w st slot path fileInfo ho hs, headerName_fst]
  · intro he
    rw [addSlotsToHandler_slots w st slot path fileInfo ho hs he, headerName_fst]
    exact SlotMap.lookup_set_self _ _ _

/-- Witness for C10: a slot whose header name is 230 long gets the second
time stamp as its name. -/
theorem addSlotsToHandler_headerName_witness :
    (Example.clock 0).FormatStamp.length = 29 ∧
    (Example.clock 1).FormatStamp.length = 29 ∧
    (∃ name : Str,
      name = (if (Example.longName ++ (Example.clock 0).FormatStamp).length ≤ 255
        then Example.longName ++ (Example.clock 0).FormatStamp
        else (Example.clock 1).FormatStamp) ∧
      name.length ≤ 255 ∧
      (addSlotsToHandler (Example.world "/home/u".toList Example.emptyConf)
          ⟨Example.manager "/home/u".toList (Example.input [] [] false), 0⟩
          ⟨Example.longName, "/data/".toList⟩ ("/data/".toList ++ Example.longName)
          ⟨false, false⟩).2.man.Handler.InputFiles
        = [] ++ [⟨⟨name⟩, "/data/".toList ++ Example.longName, false, ⟨false, false⟩⟩] ∧
      ((addSlotsToHandler (Example.world "/home/u".toList Example.emptyConf)
          ⟨Example.manager "/home/u".toList (Example.input [] [] false), 0⟩
          ⟨Example.longName, "/data/".toList⟩ ("/data/".toList ++ Example.longName)
          ⟨false, false⟩).1 = none →
        (addSlotsToHandler (Example.world "/home/u".toList Example.emptyConf)
          ⟨Example.manager "/home/u".toList (Example.input [] [] false), 0⟩
          ⟨Example.longName, "/data/".toList⟩ ("/data/".toList ++ Example.longName)
          ⟨false, false⟩).2.man.Handler.Restore.JSONFile.Slots.lookup name
          = some { HeaderName := Example.longName,
                   ParentPath := Replace1 "/data/".toList "/home/u".toList homeToken })) :=
  addSlotsToHandler_headerName (Example.world "/home/u".toList Example.emptyConf)
    ⟨Example.manager "/home/u".toList (Example.input [] [] false), 0⟩
    ⟨Example.longName, "/data/".toList⟩ ("/data/".toList ++ Example.longName) ⟨false, false⟩
    (by decide) rfl (by decide) (by decide)

/-! ## Exclusions (C1, C9) -/

/-- C1 at the scenario of the specification: with `/home/u/proj/build`
excluded, a backup of `/home/u/proj` succeeds, the exclusion set holds
`build` and `build/out.bin`, and yet both are among the entries, because the
walk callback never consults the exclusion set. -/
theorem Manage_walk_includes_excluded :
    NewManager (Example.world "/home/u".toList Example.emptyConf)
        (Example.input ["/home/u/proj".toList] ["/home/u/proj/build".toList] false)
      = .ok (Example.manager "/home/u".toList
          (Example.input ["/home/u/proj".toList] ["/home/u/proj/build".toList] false)) ∧
    (Manage (Example.world "/home/u".toList Example.emptyConf)
        ⟨Example.manager "/home/u".toList
          (Example.input ["/home/u/proj".toList] ["/home/u/proj/build".toList] false), 0⟩).err
      = none ∧
    (Manage (Example.world "/home/u".toList Example.emptyConf)
        ⟨Example.manager "/home/u".toList
          (Example.input ["/home/u/proj".toList] ["/home/u/proj/build".toList] false), 0⟩
      ).st.man.InputData.BackupData.ExcludePaths
      = ["/home/u/proj/build".toList, "/home/u/proj/build/out.bin".toList] ∧
    (Manage (Example.world "/home/u".toList Example.emptyConf)
        ⟨Example.manager "/home/u".toList
          (Example.input ["/home/u/proj".toList] ["/home/u/proj/build".toList] false), 0⟩
      ).st.man.Handler.InputFiles.map InputPaths.Path
      = ["/home/u/proj".toList, "/home/u/proj/a.txt".toList, "/home/u/proj/build".toList,
         "/home/u/proj/build/out.bin".toList] := by
  refine ⟨rfl, ?_, ?_, ?_⟩ <;> decide

/-- C9 at a relative exclude path: in the working directory `/home/u/proj`
the exclude path `build` names a directory, and `evalExcludePaths` leaves the
relative paths `build` and `build/out.bin` in the set, since it walks the path
as given; a later `addPathToHandler` on `/home/u/proj/build` does not find
its absolute path there and adds the directory. -/
theorem evalExcludePaths_keeps_relative :
    (evalExcludePaths (Example.world "/home/u/proj".toList Example.emptyConf)
        (Example.manager "/home/u/proj".toList
          (Example.input [] ["build".toList] false))).InputData.BackupData.ExcludePaths
      = ["build".toList, "build/out.bin".toList] ∧
    IsAbs "build".toList = false ∧
    IsAbs "build/out.bin".toList = false ∧
    convertPathToAbs (Example.manager "/home/u/proj".toList
        (Example.input [] ["build".toList] false)) "build".toList
      = "/home/u/proj/build".toList ∧
    (addPathToHandler (Example.world "/home/u/proj".toList Example.emptyConf)
        ⟨evalExcludePaths (Example.world "/home/u/proj".toList Example.emptyConf)
          (Example.manager "/home/u/proj".toList (Example.input [] ["build".toList] false)), 0⟩
        "/home/u/proj/build".toList).2.man.Handler.InputFiles.map InputPaths.Path
      = ["/home/u/proj/build".toList, "/home/u/proj/build/out.bin".toList] := by
  refine ⟨?_, ?_, ?_, ?_, ?_⟩ <;> decide

/-! ## The output path (C7) -/

/-- C7 at a config that names the backup: with no output path given, config
usage enabled and a config file whose backup name is `mybak.cb`, at whose
absolute path nothing exists, `Manage` succeeds with the backup name loaded,
and the output path is the name made from the clock, not `/home/u/mybak.cb`:
`evalOutputFiles` runs before `readBackupConfig` has loaded the name. -/
theorem Manage_ignores_config_backup_name :
    NewManager (Example.world "/home/u".toList Example.namedConf)
        (Example.input ["/home/u/proj/a.txt".toList] [] true)
      = .ok (Example.manager "/home/u".toList
          (Example.input ["/home/u/proj/a.txt".toList] [] true)) ∧
    (Manage (Example.world "/home/u".toList Example.namedConf)
        ⟨Example.manager "/home/u".toList
          (Example.input ["/home/u/proj/a.txt".toList] [] true), 0⟩).err = none ∧
    (Manage (Example.world "/home/u".toList Example.namedConf)
        ⟨Example.manager "/home/u".toList
          (Example.input ["/home/u/proj/a.txt".toList] [] true), 0⟩
      ).st.man.BackupConfig.BackupName = "mybak.cb".toList ∧
    convertPathToAbs (Example.manager "/home/u".toList
        (Example.input ["/home/u/proj/a.txt".toList] [] true)) "mybak.cb".toList
      = "/home/u/mybak.cb".toList ∧
    Stat (Example.world "/home/u".toList Example.namedConf) "/home/u/mybak.cb".toList
      = .error .ENOENT ∧
    (Manage (Example.world "/home/u".toList Example.namedConf)
        ⟨Example.manager "/home/u".toList
          (Example.input ["/home/u/proj/a.txt".toList] [] true), 0⟩
      ).st.man.Handler.Output.Path = "/home/u/Backup20240517093000.cb".toList := by
  refine ⟨rfl, ?_, ?_, ?_, rfl, ?_⟩ <;> decide

/-! ## No input (C8) -/

theorem takeOutput_inputData (w : World) (st : State) (absPath : Str) :
    (takeOutput w st absPath).2.man.InputData = st.man.InputData := by
  unfold takeOutput
  split
  · rfl
  · rfl
  · split <;> rfl

theorem evalOutputFiles_inputData (w : World) (st : State) :
    (evalOutputFiles w st).2.man.InputData = st.man.InputData := by
  unfold evalOutputFiles
  split
  · exact takeOutput_inputData _ _ _
  · split
    · rfl
    · exact takeOutput_inputData _ _ _

theorem buildPlan_noInput (w : World) (st : State)
    (hc : st.man.InputData.BackupData.UseConf = false)
    (hp : st.man.InputData.BackupData.InputPaths = [])
    (ht : st.man.InputData.BackupData.Tags = []) :
    buildPlan w st = (some .noInput, st) := by
  unfold buildPlan evalInputFilePath
  simp [hc, hp, ht]

/-- C8, as the code has it: in a backup with config usage disabled, no input
paths and no tags, plan building fails with the error `no paths or tags are
given` in every state, and `Manage` returns an error (that one, once the output
path is resolved) without invoking any operation of the handler. -/
theorem Manage_noInput (w : World) (st : State)
    (hb : st.man.InputData.IsBackup = true)
    (hc : st.man.InputData.BackupData.UseConf = false)
    (hp : st.man.InputData.BackupData.InputPaths = [])
    (ht : st.man.InputData.BackupData.Tags = []) :
    buildPlan w st = (some .noInput, st) ∧
    (Manage w st).invoked = none ∧
    (Manage w st).err ≠ none ∧
    ((evalOutputFiles w st).1 = none → (Manage w st).err = some .noInput) := by
  have hin := evalOutputFiles_inputData w st
  refine ⟨buildPlan_noInput w st hc hp ht, ?_⟩
  unfold Manage
  rw [if_pos hb]
  rcases hr : evalOutputFiles w st with ⟨e, st1⟩
  rw [hr] at hin
  simp only at hin
  cases e with
  | some e => simp
  | none =>
    have hplan : buildPlan w { st1 with man := evalExcludePaths w st1.man }
        = (some .noInput, { st1 with man := evalExcludePaths w st1.man }) := by
      apply buildPlan_noInput
      · simp [evalExcludePaths, hin, hc]
      · simp [evalExcludePaths, hin, hp]
      · simp [evalExcludePaths, hin, ht]
    simp [hplan]

/-- Witness for C8: a backup request with nothing to back up and no config. -/
theorem Manage_noInput_witness :
    buildPlan (Example.world "/home/u".toList Example.emptyConf)
        ⟨Example.manager "/home/u".toList (Example.input [] [] false), 0⟩
      = (some .noInput, ⟨Example.manager "/home/u".toList (Example.input [] [] false), 0⟩) ∧
    (Manage (Example.world "/home/u".toList Example.emptyConf)
        ⟨Example.manager "/home/u".toList (Example.input [] [] false), 0⟩).invoked = none ∧
    (Manage (Example.world "/home/u".toList Example.emptyConf)
        ⟨Example.manager "/home/u".toList (Example.input [] [] false), 0⟩).err ≠ none ∧
    ((evalOutputFiles (Example.world "/home/u".toList Example.emptyConf)
        ⟨Example.manager "/home/u".toList (Example.input [] [] false), 0⟩).1 = none →
      (Manage (Example.world "/home/u".toList Example.emptyConf)
        ⟨Example.manager "/home/u".toList (Example.input [] [] false), 0⟩).err
        = some .noInput) :=
  Manage_noInput (Example.world "/home/u".toList Example.emptyConf)
    ⟨Example.manager "/home/u".toList (Example.input [] [] false), 0⟩ rfl rfl rfl rfl

/-- C8 fails as stated: with config usage enabled and a config file that lists
no paths and no tags, a backup with no input paths and no tags returns no
error, and `Pack` is invoked on an empty plan. -/
theorem Manage_empty_config_packs :
    NewManager (Example.world "/home/u".toList Example.emptyConf) (Example.input [] [] true)
      = .ok (Example.manager "/home/u".toList (Example.input [] [] true)) ∧
    (Manage (Example.world "/home/u".toList Example.emptyConf)
        ⟨Example.manager "/home/u".toList (Example.input [] [] true), 0⟩).err = none ∧
    (Manage (Example.world "/home/u".toList Example.emptyConf)
        ⟨Example.manager "/home/u".toList (Example.input [] [] true), 0⟩).invoked
      = some .Pack ∧
    (Manage (Example.world "/home/u".toList Example.emptyConf)
        ⟨Example.manager "/home/u".toList (Example.input [] [] true), 0⟩
      ).st.man.BackupConfig.BackupPaths = [] ∧
    (Manage (Example.world "/home/u".toList Example.emptyConf)
        ⟨Example.manager "/home/u".toList (Example.input [] [] true), 0⟩
      ).st.man.BackupConfig.Tags = [] ∧
    (Manage (Example.world "/home/u".toList Example.emptyConf)
        ⟨Example.manager "/home/u".toList (Example.input [] [] true), 0⟩
      ).st.man.Handler.InputFiles = [] := by
  refine ⟨rfl, ?_, ?_, ?_, ?_, ?_⟩ <;> decide

/-! ## A file in the home directory (C6) -/

theorem IsAbs_append (a b : Str) (h : IsAbs a = true) : IsAbs (a ++ b) = true := by
  cases a with
  | nil => simp [IsAbs] at h
  | cons c cs => simpa [IsAbs] using h

theorem convertPathToAbs_abs (man : Manager) (path : Str) (h : IsAbs path = true) :
    convertPathToAbs man path = path := by
  simp [convertPathToAbs, h]

theorem fileSlot_dir_name (d name : Str) (hne : name ≠ []) (hs : '/' ∉ name) :
    fileSlot (d ++ '/' :: name) = ⟨name, d ++ ['/']⟩ := by
  have hb := Base_dir_name d name hne hs
  have ht : TrimSuffix (d ++ '/' :: name) name = d ++ ['/'] := by
    have : d ++ '/' :: name = (d ++ ['/']) ++ name := by simp
    rw [this]; exact TrimSuffix_append _ _
  simp [fileSlot, hb, ht]

/-- C6, as the code has it: for a home directory `H` (an absolute path) and a
regular file `H/name` whose name is at most 226 long, neither excluded nor the
output path, `addPathToHandler` on an empty plan succeeds with exactly one
entry, whose header name is the name followed by the time stamp, and exactly
one slot, whose parent path is the placeholder followed by the separator that
stood between `H` and the name. -/
theorem addPathToHandler_home_file (w : World) (st : State) (H name : Str)
    (hH : st.man.HomeDir = H) (habs : IsAbs H = true)
    (hne : name ≠ []) (hs : '/' ∉ name) (hlen : name.length ≤ 226)
    (hex : H ++ '/' :: name ∉ st.man.InputData.BackupData.ExcludePaths)
    (hout : H ++ '/' :: name ≠ st.man.Handler.Output.Path)
    (hfile : Lstat w (H ++ '/' :: name) = .ok ⟨false, false⟩)
    (hfiles : st.man.Handler.InputFiles = [])
    (hslots : st.man.Handler.Restore.JSONFile.Slots = [])
    (hclk : (w.clock st.tick).InRange) :
    (addPathToHandler w st (H ++ '/' :: name)).1 = none ∧
    (addPathToHandler w st (H ++ '/' :: name)).2.man.Handler.InputFiles
      = [⟨⟨name ++ (w.clock st.tick).FormatStamp⟩, H ++ '/' :: name, false, ⟨false, false⟩⟩] ∧
    (addPathToHandler w st (H ++ '/' :: name)).2.man.Handler.Restore.JSONFile.Slots
      = [(name ++ (w.clock st.tick).FormatStamp, ⟨name, homeToken ++ ['/']⟩)] := by
  have hconv : convertPathToAbs st.man (H ++ '/' :: name) = H ++ '/' :: name :=
    convertPathToAbs_abs _ _ (IsAbs_append _ _ habs)
  have hlen2 : (name ++ (w.clock st.tick).FormatStamp).length ≤ 255 := by
    rw [List.length_append, FormatStamp_length _ hclk]; omega
  have hname : (headerName w st.tick (fileSlot (H ++ '/' :: name))).1
      = name ++ (w.clock st.tick).FormatStamp := by
    rw [headerName_fst, fileSlot_dir_name H name hne hs]
    exact if_pos hlen2
  have hfree : ¬ st.man.Handler.Restore.JSONFile.Slots.Occupied
      (headerName w st.tick (fileSlot (H ++ '/' :: name))).1 := by
    rw [hslots]; simp [SlotMap.Occupied, SlotMap.get]
  have hrun : addPathToHandler w st (H ++ '/' :: name)
      = addSlotsToHandler w st (fileSlot (H ++ '/' :: name)) (H ++ '/' :: name) ⟨false, false⟩ := by
    unfold addPathToHandler
    simp only [hconv, if_neg hex, hfile]
    rfl
  rw [hrun, addSlotsToHandler_eq w st _ _ _ hout rfl, if_neg hfree, hname]
  refine ⟨rfl, ?_, ?_⟩
  · simp [hfiles, FileInfo.IsDir, Manager.setSlots]
  · simp only [hslots, SlotMap.set, fileSlot_dir_name H name hne hs, hH, Manager.setSlots]
    rw [Replace1_at_start]

/-- Witness for C6: `notes.txt` in the home directory `/home/u`. -/
theorem addPathToHandler_home_file_witness :
    (addPathToHandler (Example.world "/home/u".toList Example.emptyConf)
        ⟨Example.manager "/home/u".toList (Example.input [] [] false), 0⟩
        ("/home/u".toList ++ '/' :: "notes.txt".toList)).1 = none ∧
    (addPathToHandler (Example.world "/home/u".toList Example.emptyConf)
        ⟨Example.manager "/home/u".toList (Example.input [] [] false), 0⟩
        ("/home/u".toList ++ '/' :: "notes.txt".toList)).2.man.Handler.InputFiles
      = [⟨⟨"notes.txt".toList ++ (Example.clock 0).FormatStamp⟩,
          "/home/u".toList ++ '/' :: "notes.txt".toList, false, ⟨false, false⟩⟩] ∧
    (addPathToHandler (Example.world "/home/u".toList Example.emptyConf)
        ⟨Example.manager "/home/u".toList (Example.input [] [] false), 0⟩
        ("/home/u".toList ++ '/' :: "notes.txt".toList)).2.man.Handler.Restore.JSONFile.Slots
      = [("notes.txt".toList ++ (Example.clock 0).FormatStamp,
          ⟨"notes.txt".toList, homeToken ++ ['/']⟩)] :=
  addPathToHandler_home_file (Example.world "/home/u".toList Example.emptyConf)
    ⟨Example.manager "/home/u".toList (Example.input [] [] false), 0⟩
    "/home/u".toList "notes.txt".toList rfl rfl (by decide) (by decide) (by decide)
    (by decide) (by decide) rfl rfl rfl (by decide)

/-- C6 fails as stated: the backup of `/home/u/notes.txt` with home directory
`/home/u` stores the parent path `#/HomeDir#//`, the placeholder followed by a
separator, not the placeholder alone; and a file of the home directory whose
name is 230 long gets a time stamp alone as its header name. -/
theorem Manage_home_file_parentPath :
    NewManager (Example.world "/home/u".toList Example.emptyConf)
        (Example.input ["/home/u/notes.txt".toList] [] false)
      = .ok (Example.manager "/home/u".toList
          (Example.input ["/home/u/notes.txt".toList] [] false)) ∧
    (Manage (Example.world "/home/u".toList Example.emptyConf)
        ⟨Example.manager "/home/u".toList
          (Example.input ["/home/u/notes.txt".toList] [] false), 0⟩).err = none ∧
    (Manage (Example.world "/home/u".toList Example.emptyConf)
        ⟨Example.manager "/home/u".toList
          (Example.input ["/home/u/notes.txt".toList] [] false), 0⟩
      ).st.man.Handler.InputFiles.map (fun e => e.Header.Name)
      = ["notes.txt2024-05-17,09:30:00.000000001".toList] ∧
    (Manage (Example.world "/home/u".toList Example.emptyConf)
        ⟨Example.manager "/home/u".toList
          (Example.input ["/home/u/notes.txt".toList] [] false), 0⟩
      ).st.man.Handler.Restore.JSONFile.Slots
      = [("notes.txt2024-05-17,09:30:00.000000001".toList,
          ⟨"notes.txt".toList, "#/HomeDir#//".toList⟩)] ∧
    "#/HomeDir#//".toList ≠ homeToken ∧
    (addPathToHandler (Example.world "/home/u".toList Example.emptyConf)
        ⟨Example.manager "/home/u".toList (Example.input [] [] false), 0⟩
        ("/home/u/".toList ++ Example.longName)).1 = none ∧
    (addPathToHandler (Example.world "/home/u".toList Example.emptyConf)
        ⟨Example.manager "/home/u".toList (Example.input [] [] false), 0⟩
        ("/home/u/".toList ++ Example.longName)).2.man.Handler.InputFiles.map
          (fun e => e.Header.Name)
      = ["2024-05-17,09:30:00.000000001".toList] := by
  refine ⟨rfl, ?_, ?_, ?_, ?_, ?_, ?_⟩ <;> decide

/-! ## The walk: what every visit preserves -/

theorem walkLoop_preserves {σ : Type} (P : σ → Prop)
    (fn : Str → Option FileInfo → Option Error → σ → Option Error × σ)
    (hfn : ∀ p fi s, P s → (fn p (some fi) none s).1 = none → P (fn p (some fi) none s).2)
    (l : List (Str × FileInfo)) (s : σ) (hs : P s) (he : (walkLoop fn l s).1 = none) :
    P (walkLoop fn l s).2 := by
  induction l generalizing s with
  | nil => exact hs
  | cons x rest ih =>
    obtain ⟨p, fi⟩ := x
    unfold walkLoop at he ⊢
    rcases hr : fn p (some fi) none s with ⟨e, s1⟩
    rw [hr] at he
    cases e with
    | some e => simp at he
    | none =>
      have h1 : P s1 := by
        have := hfn p fi s hs (by rw [hr])
        rwa [hr] at this
      exact ih s1 h1 he

theorem Walk_preserves {σ : Type} (P : σ → Prop) (w : World) (root : Str)
    (fn : Str → Option FileInfo → Option Error → σ → Option Error × σ)
    (hfn : ∀ p fi s, P s → (fn p (some fi) none s).1 = none → P (fn p (some fi) none s).2)
    (herr : ∀ e s, P s → (fn root none (some e) s).1 = none → P (fn root none (some e) s).2)
    (s : σ) (hs : P s) (he : (Walk w root fn s).1 = none) :
    P (Walk w root fn s).2 := by
  unfold Walk at he ⊢
  split at he
  · exact herr _ s hs he
  · exact walkLoop_preserves P fn hfn _ s hs he

/-! ## Plan uniqueness (C3) -/

theorem homeToken_ne_nil : homeToken ≠ [] := by decide

theorem PlanInv.not_mem_of_free {h : Handler} (hinv : PlanInv h) {key : Str}
    (hfree : ¬ h.Restore.JSONFile.Slots.Occupied key) : key ∉ h.Restore.JSONFile.Slots.keys := by
  intro hmem
  obtain ⟨v, hv, hget⟩ := SlotMap.get_of_mem _ _ hmem
  apply hfree
  unfold SlotMap.Occupied
  rw [hget]
  exact hinv.2.2 (key, v) hv

theorem addSlotsToHandler_inv (w : World) (st : State) (slot : RestSlot) (path : Str)
    (fileInfo : FileInfo) (hinv : PlanInv st.man.Handler)
    (hslot : slot.ParentPath ≠ [] ∨ slot.HeaderName ≠ [])
    (he : (addSlotsToHandler w st slot path fileInfo).1 = none) :
    PlanInv (addSlotsToHandler w st slot path fileInfo).2.man.Handler := by
  by_cases ho : path = st.man.Handler.Output.Path
  · simp [addSlotsToHandler, ho] at he
  · cases hs : fileInfo.isSocket with
    | true => simp [addSlotsToHandler, ho, hs] at he
    | false =>
      rw [addSlotsToHandler_eq w st slot path fileInfo ho hs] at he ⊢
      by_cases hocc : st.man.Handler.Restore.JSONFile.Slots.Occupied (headerName w st.tick slot).1
      · rw [if_pos hocc] at he; simp at he
      · rw [if_neg hocc]
        have hnot := hinv.not_mem_of_free hocc
        obtain ⟨h1, h2, h3⟩ := hinv
        simp only [PlanInv, Handler.names, Manager.setSlots] at h1 ⊢
        rw [SlotMap.set_of_not_mem _ _ _ hnot]
        refine ⟨?_, ?_, ?_⟩
        · simp only [List.map_append, SlotMap.keys] at h1 ⊢
          rw [h1]; rfl
        · simp only [SlotMap.keys, List.map_append, List.map_cons, List.map_nil]
          rw [List.nodup_append]
          refine ⟨h2, by simp, ?_⟩
          intro a ha hb
          have : a = (headerName w st.tick slot).1 := by simpa using hb
          subst this
          exact hnot ha
        · intro kv hkv
          rcases List.mem_append.mp hkv with hkv | hkv
          · exact h3 kv hkv
          · have : kv = ((headerName w st.tick slot).1,
                { slot with ParentPath := Replace1 slot.ParentPath st.man.HomeDir homeToken }) := by
              simpa using hkv
            subst this
            rcases hslot with hp | hh
            · left; exact Replace1_ne_nil _ _ _ hp homeToken_ne_nil
            · right; exact hh

theorem Lstat_nil (w : World) : Lstat w [] = .error .ENOENT := by
  simp [Lstat, resolve]

theorem walkSlot_occupied (absPath path : Str) (slot : RestSlot) (hp : path ≠ [])
    (h : walkSlot absPath path = some slot) :
    slot.ParentPath ≠ [] ∨ slot.HeaderName ≠ [] := by
  unfold walkSlot at h
  split at h
  · simp at h
  · rename_i name _
    have : slot = ⟨name, TrimSuffix path name⟩ := by simpa using h.symm
    subst this
    by_cases hn : name = []
    · left; subst hn; simpa [TrimSuffix_nil] using hp
    · right; exact hn

theorem walkFn_inv (w : World) (absPath path : Str) (info : Option FileInfo) (st : State)
    (hinv : PlanInv st.man.Handler) (he : (walkFn w absPath path info none st).1 = none) :
    PlanInv (walkFn w absPath path info none st).2.man.Handler := by
  unfold walkFn at he ⊢
  simp only at he ⊢
  cases hl : Lstat w path with
  | error e => rw [hl] at he; simp at he
  | ok fileInfo =>
    have hp : path ≠ [] := by
      intro h; subst h; rw [Lstat_nil] at hl; cases hl
    rw [hl] at he
    simp only at he ⊢
    cases hsl : walkSlot absPath path with
    | none => rw [hsl] at he; simp at he
    | some slot =>
      rw [hsl] at he
      simp only at he ⊢
      exact addSlotsToHandler_inv w st slot path fileInfo hinv
        (walkSlot_occupied absPath path slot hp hsl) he

theorem fileSlot_occupied (absPath : Str) :
    (fileSlot absPath).ParentPath ≠ [] ∨ (fileSlot absPath).HeaderName ≠ [] :=
  Or.inr (Base_ne_nil absPath)

theorem addPathToHandler_inv (w : World) (st : State) (path : Str)
    (hinv : PlanInv st.man.Handler) (he : (addPathToHandler w st path).1 = none) :
    PlanInv (addPathToHandler w st path).2.man.Handler := by
  unfold addPathToHandler at he ⊢
  simp only at he ⊢
  split at he
  · rename_i hex; rw [if_pos hex]; exact hinv
  · rename_i hex
    rw [if_neg hex]
    cases hl : Lstat w (convertPathToAbs st.man path) with
    | error e => rw [hl] at he; simp at he
    | ok info =>
      rw [hl] at he
      simp only at he ⊢
      split at he
      · rename_i hd
        rw [if_pos hd]
        refine Walk_preserves (fun s => PlanInv s.man.Handler) w _ _ ?_ ?_ st hinv he
        · intro p fi s hs h; exact walkFn_inv w _ p (some fi) s hs h
        · intro e s _ h; simp [walkFn] at h
      · rename_i hd
        rw [if_neg hd]
        exact addSlotsToHandler_inv w st _ _ info hinv (fileSlot_occupied _) he

theorem addTags_inv (w : World) (tags : List Str) (st : State)
    (hinv : PlanInv st.man.Handler) (he : (addTags w st tags).1 = none) :
    PlanInv (addTags w st tags).2.man.Handler := by
  induction tags generalizing st with
  | nil => exact hinv
  | cons tag rest ih =>
    unfold addTags at he ⊢
    rcases hr : addPathToHandler w st (tagPath w st.man tag) with ⟨e, st1⟩
    rw [hr] at he
    cases e with
    | some e => simp at he
    | none =>
      have h1 : PlanInv st1.man.Handler := by
        have := addPathToHandler_inv w st _ hinv (by rw [hr])
        rwa [hr] at this
      exact ih st1 h1 he

theorem runSteps_inv (w : World) (steps : List Step) (st : State)
    (hinv : PlanInv st.man.Handler) (he : (runSteps w st steps).1 = none) :
    PlanInv (runSteps w st steps).2.man.Handler := by
  induction steps generalizing st with
  | nil => exact hinv
  | cons s rest ih =>
    unfold runSteps at he ⊢
    rcases hr : runStep w st s with ⟨e, st1⟩
    rw [hr] at he
    cases e with
    | some e => simp at he
    | none =>
      have h1 : PlanInv st1.man.Handler := by
        cases s with
        | path p =>
          have := addPathToHandler_inv w st p hinv (by simpa [runStep] using congrArg Prod.fst hr)
          simp only [runStep] at hr
          rwa [hr] at this
        | tags ts =>
          have := addTags_inv w ts st hinv (by simpa [runStep] using congrArg Prod.fst hr)
          simp only [runStep] at hr
          rwa [hr] at this
      exact ih st1 h1 he

/-- C3: from an empty entry list and an empty restore mapping, after any
sequence of `addPathToHandler` and `addTags` steps that all return no error,
in any world (any clock, equal readings included), the header names of the
entries are pairwise distinct and are exactly the keys of the restore
mapping. -/
theorem plan_names_unique (w : World) (st : State) (steps : List Step)
    (hfiles : st.man.Handler.InputFiles = [])
    (hslots : st.man.Handler.Restore.JSONFile.Slots = [])
    (he : (runSteps w st steps).1 = none) :
    (runSteps w st steps).2.man.Handler.names.Nodup ∧
    ∀ key, key ∈ (runSteps w st steps).2.man.Handler.names
      ↔ key ∈ (runSteps w st steps).2.man.Handler.Restore.JSONFile.Slots.keys := by
  have h0 : PlanInv st.man.Handler := by
    simp [PlanInv, Handler.names, hfiles, hslots, SlotMap.keys]
  obtain ⟨h1, h2, _⟩ := runSteps_inv w steps st h0 he
  rw [h1]
  exact ⟨h2, fun _ => Iff.rfl⟩

/-- Witness for C3: a file and a directory are added while the clock stands
still. -/
theorem plan_names_unique_witness :
    (runSteps Example.frozenWorld
        ⟨Example.manager "/home/u".toList (Example.input [] [] false), 0⟩
        [.path "/home/u/notes.txt".toList, .path "/home/u/proj".toList]).1 = none ∧
    ((runSteps Example.frozenWorld
        ⟨Example.manager "/home/u".toList (Example.input [] [] false), 0⟩
        [.path "/home/u/notes.txt".toList, .path "/home/u/proj".toList]).2.man.Handler.names.Nodup ∧
    ∀ key, key ∈ (runSteps Example.frozenWorld
        ⟨Example.manager "/home/u".toList (Example.input [] [] false), 0⟩
        [.path "/home/u/notes.txt".toList, .path "/home/u/proj".toList]).2.man.Handler.names
      ↔ key ∈ (runSteps Example.frozenWorld
        ⟨Example.manager "/home/u".toList (Example.input [] [] false), 0⟩
        [.path "/home/u/notes.txt".toList,
          .path "/home/u/proj".toList]).2.man.Handler.Restore.JSONFile.Slots.keys) :=
  ⟨by decide,
    plan_names_unique Example.frozenWorld
      ⟨Example.manager "/home/u".toList (Example.input [] [] false), 0⟩
      [.path "/home/u/notes.txt".toList, .path "/home/u/proj".toList] rfl rfl (by decide)⟩

/-! ## No self-inclusion (C4) -/

theorem addSlotsToHandler_self (w : World) (st : State) (slot : RestSlot) (fileInfo : FileInfo) :
    addSlotsToHandler w st slot st.man.Handler.Output.Path fileInfo
      = (some (.selfRecursion st.man.Handler.Output.Path st.man.Handler.Output.Path), st) := by
  simp [addSlotsToHandler]

theorem restFileAddEntries_setting (man : Manager) (key : Str) (slot : RestSlot) :
    (restFileAddEntries man key slot).2.setting = man.setting := by
  unfold restFileAddEntries
  simp only
  split <;> rfl

theorem addSlotsToHandler_setting (w : World) (st : State) (slot : RestSlot) (path : Str)
    (fileInfo : FileInfo) :
    (addSlotsToHandler w st slot path fileInfo).2.man.setting = st.man.setting := by
  unfold addSlotsToHandler
  split
  · rfl
  · split
    · rfl
    · simp only
      rw [restFileAddEntries_setting]
      rfl

theorem walkFn_setting (w : World) (absPath path : Str) (info : Option FileInfo)
    (err : Option Error) (st : State) :
    (walkFn w absPath path info err st).2.man.setting = st.man.setting := by
  unfold walkFn
  split
  · rfl
  · split
    · rfl
    · split
      · rfl
      · exact addSlotsToHandler_setting _ _ _ _ _

theorem addPathToHandler_setting (w : World) (st : State) (path : Str)
    (he : (addPathToHandler w st path).1 = none) :
    (addPathToHandler w st path).2.man.setting = st.man.setting := by
  unfold addPathToHandler at he ⊢
  simp only at he ⊢
  split
  · rfl
  · rename_i hex
    rw [if_neg hex] at he
    split
    · rfl
    · rename_i info hl
      rw [hl] at he
      simp only at he
      split
      · rename_i hd
        rw [if_pos hd] at he
        refine Walk_preserves (fun s => s.man.setting = st.man.setting) w _ _ ?_ ?_ st rfl he
        · intro p fi s hs _; rw [walkFn_setting]; exact hs
        · intro e s hs _; rw [walkFn_setting]; exact hs
      · exact addSlotsToHandler_setting _ _ _ _ _

theorem addPaths_setting (w : World) (paths : List Str) (st : State)
    (he : (addPaths w st paths).1 = none) :
    (addPaths w st paths).2.man.setting = st.man.setting := by
  induction paths generalizing st with
  | nil => rfl
  | cons p rest ih =>
    unfold addPaths at he ⊢
    rcases hr : addPathToHandler w st p with ⟨e, st1⟩
    rw [hr] at he
    cases e with
    | some e => simp at he
    | none =>
      have h1 : st1.man.setting = st.man.setting := by
        have := addPathToHandler_setting w st p (by rw [hr])
        rwa [hr] at this
      simp only at he ⊢
      rw [ih st1 he, h1]

theorem addTags_setting (w : World) (tags : List Str) (st : State)
    (he : (addTags w st tags).1 = none) :
    (addTags w st tags).2.man.setting = st.man.setting := by
  induction tags generalizing st with
  | nil => rfl
  | cons tag rest ih =>
    unfold addTags at he ⊢
    rcases hr : addPathToHandler w st (tagPath w st.man tag) with ⟨e, st1⟩
    rw [hr] at he
    cases e with
    | some e => simp at he
    | none =>
      have h1 : st1.man.setting = st.man.setting := by
        have := addPathToHandler_setting w st _ (by rw [hr])
        rwa [hr] at this
      simp only at he ⊢
      rw [ih st1 he, h1]

theorem readBackupConfig_setting (w : World) (man : Manager) :
    (readBackupConfig w man).2.setting = man.setting := by
  unfold readBackupConfig
  simp only
  split
  · rfl
  · split
    · rfl
    · split <;> rfl

theorem evalBackupConfig_setting (w : World) (st : State)
    (he : (evalBackupConfig w st).1 = none) :
    (evalBackupConfig w st).2.man.setting = st.man.setting := by
  unfold evalBackupConfig at he ⊢
  simp only at he ⊢
  split at he
  · simp at he
  · rename_i st2 hr
    rw [addTags_setting w _ st2 he]
    have := addPaths_setting w _ _ (by rw [hr])
    rw [hr] at this
    exact this

theorem hitsOutput_congr (w : World) (a b : Manager) (path : Str)
    (h : a.setting = b.setting) : hitsOutput w a path = hitsOutput w b path := by
  simp only [Manager.setting, Prod.mk.injEq] at h
  obtain ⟨h1, h2, h3, _⟩ := h
  simp only [hitsOutput, convertPathToAbs, h1, h2, h3]

theorem walkFn_output (w : World) (absPath : Str) (info : Option FileInfo) (st : State) :
    (walkFn w absPath st.man.Handler.Output.Path info none st).1 ≠ none := by
  unfold walkFn
  simp only
  split
  · simp
  · split
    · simp
    · rw [addSlotsToHandler_self]; simp

theorem walkLoop_output (w : World) (absPath out : Str) (l : List (Str × FileInfo))
    (st : State) (ho : st.man.Handler.Output.Path = out)
    (hmem : out ∈ l.map Prod.fst) :
    (walkLoop (walkFn w absPath) l st).1 ≠ none := by
  induction l generalizing st with
  | nil => simp at hmem
  | cons x rest ih =>
    obtain ⟨p, fi⟩ := x
    unfold walkLoop
    rcases hr : walkFn w absPath p (some fi) none st with ⟨e, st1⟩
    cases e with
    | some e => simp
    | none =>
      simp only
      have hset : st1.man.setting = st.man.setting := by
        have := walkFn_setting w absPath p (some fi) none st
        rwa [hr] at this
      have ho1 : st1.man.Handler.Output.Path = out := by
        have := congrArg Prod.fst hset
        simp only [Manager.setting] at this
        rw [this, ho]
      have hne : p ≠ out := by
        intro hp
        have := walkFn_output w absPath (some fi) st
        rw [ho, ← hp, hr] at this
        exact this rfl
      apply ih st1 ho1
      simp only [List.map_cons, List.mem_cons] at hmem
      rcases hmem with h | h
      · exact absurd h.symm hne
      · exact h

theorem walkList_head (path : Str) (n : Node) (h : n.info.isDir = true) :
    path ∈ (n.walkList path).map Prod.fst := by
  cases n with
  | regular => simp [Node.info] at h
  | socket => simp [Node.info] at h
  | dir es =>
    simp only [Node.walkList, List.map_cons]
    exact List.mem_cons_self _ _

theorem addPathToHandler_output (w : World) (st : State) (path : Str)
    (h : hitsOutput w st.man path = true) : (addPathToHandler w st path).1 ≠ none := by
  simp only [hitsOutput, Bool.and_eq_true, Bool.not_eq_true', decide_eq_false_iff_not,
    Bool.or_eq_true, decide_eq_true_eq] at h
  obtain ⟨hex, hcase⟩ := h
  unfold addPathToHandler
  simp only
  rw [if_neg hex]
  unfold Lstat
  cases hres : resolve w.root w.cwd (convertPathToAbs st.man path) with
  | error e => simp
  | ok n =>
    simp only
    cases hd : n.info.isDir with
    | false =>
      rw [hres] at hcase
      simp only [hd, Bool.false_and, Bool.false_eq_true, or_false] at hcase
      simp only [FileInfo.IsDir, hd, Bool.false_eq_true, if_false]
      rw [hcase, addSlotsToHandler_self]
      simp
    | true =>
      simp only [FileInfo.IsDir, hd, if_true]
      have hmem : st.man.Handler.Output.Path
          ∈ (n.walkList (convertPathToAbs st.man path)).map Prod.fst := by
        rcases hcase with h | h
        · rw [← h]; exact walkList_head _ n hd
        · rw [hres] at h
          simp only [hd, Bool.true_and, decide_eq_true_eq] at h
          exact h
      unfold Walk
      rw [hres]
      exact walkLoop_output w _ _ _ st rfl hmem

theorem addPaths_output (w : World) (paths : List Str) (st : State) (path : Str)
    (hmem : path ∈ paths) (h : hitsOutput w st.man path = true) :
    (addPaths w st paths).1 ≠ none := by
  induction paths generalizing st with
  | nil => simp at hmem
  | cons p rest ih =>
    unfold addPaths
    rcases hr : addPathToHandler w st p with ⟨e, st1⟩
    cases e with
    | some e => simp
    | none =>
      simp only
      have hset : st1.man.setting = st.man.setting := by
        have := addPathToHandler_setting w st p (by rw [hr])
        rwa [hr] at this
      have hne : path ≠ p := by
        intro hp
        have := addPathToHandler_output w st path h
        rw [hp, hr] at this
        exact this rfl
      apply ih st1
      · rcases List.mem_cons.mp hmem with h1 | h1
        · exact absurd h1 hne
        · exact h1
      · rw [hitsOutput_congr w st1.man st.man path hset]; exact h

theorem buildPlan_output (w : World) (st : State) (path : Str)
    (hmem : path ∈ st.man.InputData.BackupData.InputPaths)
    (h : hitsOutput w st.man path = true) : (buildPlan w st).1 ≠ none := by
  have key : ∀ st1 : State, st1.man.setting = st.man.setting →
      (match evalInputFilePath w st1 with
        | (some e, st2) => (some e, st2)
        | (none, st2) => evalTags w st2).1 ≠ none := by
    intro st1 hset
    have hin : st1.man.InputData.BackupData.InputPaths = st.man.InputData.BackupData.InputPaths := by
      have := congrArg (fun x => x.2.2.2) hset
      simpa [Manager.setting] using this
    have hpos : st1.man.InputData.BackupData.InputPaths.length > 0 := by
      rw [hin]; exact List.length_pos_of_mem hmem
    have herr : (addPaths w st1 st1.man.InputData.BackupData.InputPaths).1 ≠ none := by
      apply addPaths_output w _ st1 path (by rw [hin]; exact hmem)
      rw [hitsOutput_congr w st1.man st.man path hset]; exact h
    unfold evalInputFilePath
    rw [if_pos hpos]
    rcases hr : addPaths w st1 st1.man.InputData.BackupData.InputPaths with ⟨e, st2⟩
    rw [hr] at herr
    cases e with
    | some e => simp
    | none => exact absurd rfl herr
  unfold buildPlan
  simp only
  by_cases hc : st.man.InputData.BackupData.UseConf = true
  · rw [if_pos hc]
    rcases hrd : readBackupConfig w st.man with ⟨e, man1⟩
    have hs1 : man1.setting = st.man.setting := by
      have := readBackupConfig_setting w st.man
      rwa [hrd] at this
    cases e with
    | some e => simp
    | none =>
      simp only
      rcases hev : evalBackupConfig w { st with man := man1 } with ⟨e2, st1⟩
      cases e2 with
      | some e => simp
      | none =>
        simp only
        apply key st1
        have := evalBackupConfig_setting w { st with man := man1 } (by rw [hev])
        rw [hev] at this
        rw [this]; exact hs1
  · rw [if_neg hc]
    exact key st rfl

/-- What the comparison of path strings does catch: `addSlotsToHandler`
refuses a candidate whose path is spelled as the output path and changes
nothing; `addPathToHandler` returns an error for every root that is not
excluded and is spelled as the output path, or is a directory under which the
walk visits that spelling; and `Manage` in backup mode, when one of its input
paths is such a root, returns an error and invokes no operation. -/
theorem Manage_rejects_output_as_input (w : World) (st : State) (path : Str)
    (hb : st.man.InputData.IsBackup = true)
    (hmem : path ∈ st.man.InputData.BackupData.InputPaths)
    (h : hitsOutput w (evalExcludePaths w (evalOutputFiles w st).2.man) path = true) :
    (∀ (st1 : State) (slot : RestSlot) (fileInfo : FileInfo),
      addSlotsToHandler w st1 slot st1.man.Handler.Output.Path fileInfo
        = (some (.selfRecursion st1.man.Handler.Output.Path st1.man.Handler.Output.Path), st1)) ∧
    (∀ (st1 : State) (root : Str), hitsOutput w st1.man root = true →
      (addPathToHandler w st1 root).1 ≠ none) ∧
    (Manage w st).err ≠ none ∧ (Manage w st).invoked = none := by
  refine ⟨addSlotsToHandler_self w, addPathToHandler_output w, ?_⟩
  have hin := evalOutputFiles_inputData w st
  unfold Manage
  rw [if_pos hb]
  rcases hr : evalOutputFiles w st with ⟨e, st1⟩
  rw [hr] at hin h
  simp only at hin h
  cases e with
  | some e => simp
  | none =>
    simp only
    have hplan := buildPlan_output w { st1 with man := evalExcludePaths w st1.man } path
      (by simpa [evalExcludePaths, hin] using hmem) h
    rcases hp : buildPlan w { st1 with man := evalExcludePaths w st1.man } with ⟨e2, st2⟩
    rw [hp] at hplan
    cases e2 with
    | some e => simp
    | none => exact absurd rfl hplan

/-- The output path `/home/u/proj/a.txt` exists and lies under the input path
`/home/u/proj`, spelled as the walk spells it: `Manage` stops with the
self-recursion error. -/
theorem Manage_rejects_output_as_input_witness :
    (Manage (Example.world "/home/u".toList Example.emptyConf)
        ⟨Example.manager "/home/u".toList Example.selfInput, 0⟩).err
      = some (.selfRecursion "/home/u/proj/a.txt".toList "/home/u/proj/a.txt".toList) ∧
    ((∀ (st1 : State) (slot : RestSlot) (fileInfo : FileInfo),
      addSlotsToHandler (Example.world "/home/u".toList Example.emptyConf) st1 slot
          st1.man.Handler.Output.Path fileInfo
        = (some (.selfRecursion st1.man.Handler.Output.Path st1.man.Handler.Output.Path), st1)) ∧
    (∀ (st1 : State) (root : Str),
      hitsOutput (Example.world "/home/u".toList Example.emptyConf) st1.man root = true →
      (addPathToHandler (Example.world "/home/u".toList Example.emptyConf) st1 root).1 ≠ none) ∧
    (Manage (Example.world "/home/u".toList Example.emptyConf)
        ⟨Example.manager "/home/u".toList Example.selfInput, 0⟩).err ≠ none ∧
    (Manage (Example.world "/home/u".toList Example.emptyConf)
        ⟨Example.manager "/home/u".toList Example.selfInput, 0⟩).invoked = none) :=
  ⟨by decide,
    Manage_rejects_output_as_input (Example.world "/home/u".toList Example.emptyConf)
      ⟨Example.manager "/home/u".toList Example.selfInput, 0⟩ "/home/u/proj".toList
      rfl (by decide) (by decide)⟩

/-- C4 at an output file named by another spelling: with the output path
`/home/u/notes.txt`, an existing file, and the input path
`/home/u/./notes.txt`, which cleans to the same path and names the same file,
`addSlotsToHandler` compares the two strings, finds them different and adds
the output file as an entry; `Manage` returns no error and invokes `Pack`.
The same happens for the output path `/home/u/proj/./a.txt` under the input
directory `/home/u/proj`, whose walk visits `/home/u/proj/a.txt`. -/
theorem Manage_packs_respelled_output :
    NewManager (Example.world "/home/u".toList Example.emptyConf) Example.spelledInput
      = .ok (Example.manager "/home/u".toList Example.spelledInput) ∧
    Clean "/home/u/./notes.txt".toList = "/home/u/notes.txt".toList ∧
    (Manage (Example.world "/home/u".toList Example.emptyConf)
        ⟨Example.manager "/home/u".toList Example.spelledInput, 0⟩).st.man.Handler.Output.Path
      = "/home/u/notes.txt".toList ∧
    (Manage (Example.world "/home/u".toList Example.emptyConf)
        ⟨Example.manager "/home/u".toList Example.spelledInput, 0⟩).err = none ∧
    (Manage (Example.world "/home/u".toList Example.emptyConf)
        ⟨Example.manager "/home/u".toList Example.spelledInput, 0⟩).invoked = some .Pack ∧
    (Manage (Example.world "/home/u".toList Example.emptyConf)
        ⟨Example.manager "/home/u".toList Example.spelledInput, 0⟩
      ).st.man.Handler.InputFiles.map InputPaths.Path = ["/home/u/./notes.txt".toList] ∧
    Clean "/home/u/proj/./a.txt".toList = "/home/u/proj/a.txt".toList ∧
    (Manage (Example.world "/home/u".toList Example.emptyConf)
        ⟨Example.manager "/home/u".toList Example.spelledDirInput, 0⟩).st.man.Handler.Output.Path
      = "/home/u/proj/./a.txt".toList ∧
    (Manage (Example.world "/home/u".toList Example.emptyConf)
        ⟨Example.manager "/home/u".toList Example.spelledDirInput, 0⟩).err = none ∧
    (Manage (Example.world "/home/u".toList Example.emptyConf)
        ⟨Example.manager "/home/u".toList Example.spelledDirInput, 0⟩).invoked = some .Pack ∧
    (Manage (Example.world "/home/u".toList Example.emptyConf)
        ⟨Example.manager "/home/u".toList Example.spelledDirInput, 0⟩
      ).st.man.Handler.InputFiles.map InputPaths.Path
      = ["/home/u/proj".toList, "/home/u/proj/a.txt".toList, "/home/u/proj/build".toList,
         "/home/u/proj/build/out.bin".toList] := by
  refine ⟨rfl, ?_, ?_, ?_, ?_, ?_, ?_, ?_, ?_, ?_, ?_⟩ <;> decide

/-! ## Clean absolute paths -/

theorem slashed_append (as bs : List Str) : slashed (as ++ bs) = slashed as ++ slashed bs := by
  induction as with
  | nil => rfl
  | cons a rest ih => simp [slashed, ih]

theorem slashed_concat (cs : List Str) (c : Str) : slashed (cs ++ [c]) = slashed cs ++ '/' :: c := by
  rw [slashed_append]; simp [slashed]

theorem slashed_ne_nil (cs : List Str) (h : cs ≠ []) : slashed cs ≠ [] := by
  cases cs with
  | nil => exact absurd rfl h
  | cons c rest => simp [slashed]

theorem IsAbs_slashed (cs : List Str) (h : cs ≠ []) : IsAbs (slashed cs) = true := by
  cases cs with
  | nil => exact absurd rfl h
  | cons c rest => simp [slashed, IsAbs]

theorem intercalate_cons (c : Str) (cs : List Str) :
    sep.intercalate (c :: cs) = c ++ slashed cs := by
  induction cs generalizing c with
  | nil => simp [List.intercalate, List.intersperse, slashed]
  | cons d rest ih =>
    have h := ih d
    simp only [List.intercalate, List.intersperse, List.flatten_cons] at h ⊢
    rw [h]
    simp [slashed, sep]

theorem sep_intercalate (cs : List Str) (h : cs ≠ []) :
    sep ++ sep.intercalate cs = slashed cs := by
  cases cs with
  | nil => exact absurd rfl h
  | cons c rest => rw [intercalate_cons]; simp [slashed, sep]

theorem splitSep_append (c s h : Str) (t : List Str) (hc : '/' ∉ c)
    (hs : splitSep s = h :: t) : splitSep (c ++ s) = (c ++ h) :: t := by
  induction c with
  | nil => simpa using hs
  | cons x xs ih =>
    have hx : x ≠ '/' := by
      intro e; apply hc; rw [e]; exact List.mem_cons_self _ _
    have hxs : '/' ∉ xs := fun e => hc (List.mem_cons_of_mem _ e)
    have e : splitSep (x :: (xs ++ s))
        = (match splitSep (xs ++ s) with
          | [] => [[x]]
          | w :: ws => (x :: w) :: ws) := by
      rw [splitSep, if_neg hx]
    rw [List.cons_append, e, ih hxs]
    rfl

theorem splitSep_slashed (cs : List Str) (h : ∀ c ∈ cs, '/' ∉ c) :
    splitSep (slashed cs) = [] :: cs := by
  induction cs with
  | nil => rfl
  | cons c rest ih =>
    have hrest := ih (fun d hd => h d (List.mem_cons_of_mem _ hd))
    have hc := h c (List.mem_cons_self _ _)
    have e : splitSep (slashed (c :: rest)) = [] :: splitSep (c ++ slashed rest) := by
      show splitSep ('/' :: (c ++ slashed rest)) = _
      rw [splitSep, if_pos rfl]
    rw [e, splitSep_append c (slashed rest) [] rest hc hrest]
    simp

theorem splitSep_noSlash (s : Str) : ∀ e ∈ splitSep s, '/' ∉ e := by
  induction s with
  | nil => intro e he; simp [splitSep] at he; subst he; simp
  | cons c cs ih =>
    intro e he
    unfold splitSep at he
    split at he
    · rcases List.mem_cons.mp he with h | h
      · subst h; simp
      · exact ih e h
    · rename_i hc
      split at he
      · rename_i hnil
        have : e = [c] := by simpa using he
        subst this
        intro hm
        have : '/' = c := by simpa using hm
        exact hc this.symm
      · rename_i w ws hw
        rcases List.mem_cons.mp he with h | h
        · subst h
          intro hm
          rcases List.mem_cons.mp hm with h1 | h1
          · exact hc h1.symm
          · exact ih w (by rw [hw]; exact List.mem_cons_self _ _) h1
        · exact ih e (by rw [hw]; exact List.mem_cons_of_mem _ h)

theorem cleanStep_good (rooted : Bool) (stack : List Str) (c : Str) (h : GoodName c) :
    cleanStep rooted stack c = c :: stack := by
  obtain ⟨h1, _, h3, h4⟩ := h
  simp [cleanStep, h1, h3, h4]

theorem cleanStep_nil (rooted : Bool) (stack : List Str) : cleanStep rooted stack [] = stack := by
  simp [cleanStep]

theorem foldl_cleanStep (rooted : Bool) (l : List Str) (acc : List Str)
    (h : ∀ c ∈ l, c = [] ∨ GoodName c) :
    l.foldl (cleanStep rooted) acc = (l.filter (fun c => c ≠ [])).reverse ++ acc := by
  induction l generalizing acc with
  | nil => rfl
  | cons c rest ih =>
    have hrest := fun acc => ih acc (fun d hd => h d (List.mem_cons_of_mem _ hd))
    rcases h c (List.mem_cons_self _ _) with hc | hc
    · subst hc
      simp [List.foldl, cleanStep_nil, hrest]
    · have hne : c ≠ [] := hc.1
      simp [List.foldl, cleanStep_good _ _ _ hc, hrest, hne]

theorem filter_good (cs : List Str) (h : ∀ c ∈ cs, GoodName c) :
    cs.filter (fun c => c ≠ []) = cs := by
  rw [List.filter_eq_self]
  intro c hc
  simpa using (h c hc).1

theorem cleanElems_slashed (cs : List Str) (h : ∀ c ∈ cs, GoodName c) :
    cleanElems (slashed cs) = cs := by
  unfold cleanElems
  rw [splitSep_slashed cs (fun c hc => (h c hc).2.1), foldl_cleanStep]
  · simp only [List.filter_cons, ne_eq, not_true_eq_false, decide_False, Bool.false_eq_true,
      if_false, filter_good cs h, List.append_nil, List.reverse_reverse]
  · intro c hc
    rcases List.mem_cons.mp hc with h1 | h1
    · exact Or.inl h1
    · exact Or.inr (h c h1)

theorem Clean_slashed (cs : List Str) (hne : cs ≠ []) (h : ∀ c ∈ cs, GoodName c) :
    Clean (slashed cs) = slashed cs := by
  unfold Clean
  simp only [IsAbs_slashed cs hne, if_true, cleanElems_slashed cs h, sep_intercalate cs hne]
  rw [if_neg (slashed_ne_nil cs hne)]

theorem relElems_slashed (cs : List Str) (h : ∀ c ∈ cs, GoodName c) :
    relElems (slashed cs) = cs := by
  unfold relElems
  rw [splitSep_slashed cs (fun c hc => (h c hc).2.1)]
  simp only [List.filter_cons, ne_eq, not_true_eq_false, decide_False, Bool.false_eq_true,
    if_false, filter_good cs h]

theorem cleanElems_slashed_sep (cs : List Str) (h : ∀ c ∈ cs, GoodName c) :
    cleanElems (slashed cs ++ ['/']) = cs := by
  have e : slashed cs ++ ['/'] = slashed (cs ++ [[]]) := by
    rw [slashed_concat]
  unfold cleanElems
  rw [e, splitSep_slashed, foldl_cleanStep]
  · simp only [List.filter_cons, List.filter_append, ne_eq, not_true_eq_false, decide_False,
      Bool.false_eq_true, if_false, filter_good cs h, List.filter_nil, List.append_nil,
      List.reverse_reverse]
  · intro c hc
    rcases List.mem_cons.mp hc with h1 | h1
    · exact Or.inl h1
    · rcases List.mem_append.mp h1 with h2 | h2
      · exact Or.inr (h c h2)
      · left; simpa using h2
  · intro c hc
    rcases List.mem_append.mp hc with h2 | h2
    · exact (h c h2).2.1
    · have : c = [] := by simpa using h2
      subst this; simp

theorem Clean_slashed_sep (cs : List Str) (h : ∀ c ∈ cs, GoodName c) :
    Clean (slashed cs ++ ['/']) = parentOf cs := by
  have habs : IsAbs (slashed cs ++ ['/']) = true := by
    cases cs with
    | nil => rfl
    | cons c rest => simp [slashed, IsAbs]
  unfold Clean parentOf
  simp only [habs, if_true, cleanElems_slashed_sep cs h]
  by_cases hne : cs = []
  · subst hne; decide
  · rw [sep_intercalate cs hne, if_neg (slashed_ne_nil cs hne), if_neg hne]

theorem dropWhile_ne_slash (a rest : Str) (h : '/' ∉ a) :
    (a ++ '/' :: rest).dropWhile (fun c => decide (c ≠ '/')) = '/' :: rest := by
  induction a with
  | nil => simp [List.dropWhile]
  | cons x xs ih =>
    have hx : x ≠ '/' := by
      intro e; apply h; rw [e]; exact List.mem_cons_self _ _
    have hxs : '/' ∉ xs := fun e => h (List.mem_cons_of_mem _ e)
    have hd : decide (x ≠ '/') = true := by simpa using hx
    rw [List.cons_append, List.dropWhile_cons, if_pos hd]
    exact ih hxs

theorem Dir_slashed (cs : List Str) (c : Str) (h : ∀ d ∈ cs, GoodName d) (hc : '/' ∉ c) :
    Dir (slashed (cs ++ [c])) = parentOf cs := by
  have hrev : '/' ∉ c.reverse := fun e => hc (List.mem_reverse.mp e)
  unfold Dir
  rw [slashed_concat]
  have : (slashed cs ++ '/' :: c).reverse = c.reverse ++ '/' :: (slashed cs).reverse := by simp
  rw [this, dropWhile_ne_slash _ _ hrev]
  have : ('/' :: (slashed cs).reverse).reverse = slashed cs ++ ['/'] := by simp
  rw [this]
  exact Clean_slashed_sep cs h

theorem Clean_parentOf (cs : List Str) (h : ∀ d ∈ cs, GoodName d) :
    Clean (parentOf cs) = parentOf cs := by
  unfold parentOf
  by_cases hne : cs = []
  · subst hne; decide
  · rw [if_neg hne]; exact Clean_slashed cs hne h

theorem relElems_parentOf (cs : List Str) (h : ∀ d ∈ cs, GoodName d) :
    relElems (parentOf cs) = cs := by
  unfold parentOf
  by_cases hne : cs = []
  · subst hne; decide
  · rw [if_neg hne]; exact relElems_slashed cs h

theorem IsAbs_parentOf (cs : List Str) : IsAbs (parentOf cs) = true := by
  unfold parentOf
  by_cases hne : cs = []
  · subst hne; decide
  · rw [if_neg hne]; exact IsAbs_slashed cs hne

theorem dropCommon_self_append (xs ys : List Str) : dropCommon xs (xs ++ ys) = ([], ys) := by
  induction xs with
  | nil => cases ys <;> rfl
  | cons x rest ih => simp [dropCommon, ih]

theorem Rel_parentOf (cs ns : List Str) (c : Str) (hcs : ∀ d ∈ cs, GoodName d)
    (hc : GoodName c) (hns : ∀ d ∈ ns, GoodName d) :
    Rel (parentOf cs) (slashed (cs ++ c :: ns)) = some (c ++ slashed ns) := by
  have hall : ∀ d ∈ cs ++ c :: ns, GoodName d := by
    intro d hd
    rcases List.mem_append.mp hd with h | h
    · exact hcs d h
    · rcases List.mem_cons.mp h with h | h
      · rw [h]; exact hc
      · exact hns d h
  have hne : cs ++ c :: ns ≠ [] := by simp
  have hneq : slashed (cs ++ c :: ns) ≠ parentOf cs := by
    intro e
    have := congrArg relElems e
    rw [relElems_slashed _ hall, relElems_parentOf cs hcs] at this
    have := congrArg List.length this
    simp at this
  have hdot : parentOf cs ≠ dot := by
    intro e
    have := IsAbs_parentOf cs
    rw [e] at this
    exact absurd this (by decide)
  unfold Rel
  simp only [Clean_parentOf cs hcs, Clean_slashed _ hne hall, if_neg hneq, if_neg hdot,
    IsAbs_parentOf, IsAbs_slashed _ hne, relElems_parentOf cs hcs, relElems_slashed _ hall,
    dropCommon_self_append, ne_eq, not_true_eq_false, if_false, intercalate_cons]

theorem walkSlot_slashed (cs ns : List Str) (c : Str) (hcs : ∀ d ∈ cs, GoodName d)
    (hc : GoodName c) (hns : ∀ d ∈ ns, GoodName d) :
    walkSlot (slashed (cs ++ [c])) (slashed (cs ++ c :: ns))
      = some ⟨c ++ slashed ns, slashed cs ++ ['/']⟩ := by
  unfold walkSlot
  rw [Dir_slashed cs c hcs hc.2.1, Rel_parentOf cs ns c hcs hc hns]
  have : slashed (cs ++ c :: ns) = (slashed cs ++ ['/']) ++ (c ++ slashed ns) := by
    rw [slashed_append]; simp [slashed]
  simp only [this, TrimSuffix_append]

/-! ## Reversible slots (C5) -/

theorem Join_slashed (cs : List Str) (name : Str) (hne : cs ≠ [])
    (hcs : ∀ d ∈ cs, GoodName d) (hn : GoodName name) :
    Join [slashed cs, name] = slashed (cs ++ [name]) := by
  have h1 : slashed cs ≠ [] := slashed_ne_nil cs hne
  have h2 : name ≠ [] := hn.1
  have hall : ∀ d ∈ cs ++ [name], GoodName d := by
    intro d hd
    rcases List.mem_append.mp hd with h | h
    · exact hcs d h
    · have : d = name := by simpa using h
      rw [this]; exact hn
  unfold Join
  simp only [List.filter_cons, ne_eq, h1, h2, not_false_eq_true, decide_True, if_true,
    List.filter_nil, reduceCtorEq, if_false]
  rw [intercalate_cons]
  have : slashed cs ++ slashed [name] = slashed (cs ++ [name]) := (slashed_append _ _).symm
  rw [this]
  exact Clean_slashed _ (by simp) hall

mutual
theorem walkList_paths : ∀ (n : Node) (cs : List Str), cs ≠ [] → (∀ d ∈ cs, GoodName d) →
    n.wf = true → ∀ p ∈ (n.walkList (slashed cs)).map Prod.fst,
      ∃ ns, (∀ d ∈ ns, GoodName d) ∧ p = slashed (cs ++ ns)
  | .regular, cs, _, _, _ => by
    intro p hp
    have : p = slashed cs := by simpa [Node.walkList] using hp
    exact ⟨[], by simp, by simpa using this⟩
  | .socket, cs, _, _, _ => by
    intro p hp
    have : p = slashed cs := by simpa [Node.walkList] using hp
    exact ⟨[], by simp, by simpa using this⟩
  | .dir es, cs, hne, hcs, hwf => by
    intro p hp
    simp only [Node.walkList, List.map_cons, List.mem_cons] at hp
    rcases hp with hp | hp
    · exact ⟨[], by simp, by simpa using hp⟩
    · exact walkEntries_paths es cs hne hcs (by simpa [Node.wf] using hwf) p hp
theorem walkEntries_paths : ∀ (es : List (Str × Node)) (cs : List Str), cs ≠ [] →
    (∀ d ∈ cs, GoodName d) → Node.wfEntries es = true →
    ∀ p ∈ (Node.walkEntries (slashed cs) es).map Prod.fst,
      ∃ ns, (∀ d ∈ ns, GoodName d) ∧ p = slashed (cs ++ ns)
  | [], _, _, _, _ => by
    intro p hp
    simp [Node.walkEntries] at hp
  | (name, n) :: rest, cs, hne, hcs, hwf => by
    intro p hp
    simp only [Node.wfEntries, Bool.and_eq_true, decide_eq_true_eq] at hwf
    obtain ⟨⟨hname, hn⟩, hrest⟩ := hwf
    simp only [Node.walkEntries, List.map_append, List.mem_append] at hp
    rcases hp with hp | hp
    · rw [Join_slashed cs name hne hcs hname] at hp
      have hall : ∀ d ∈ cs ++ [name], GoodName d := by
        intro d hd
        rcases List.mem_append.mp hd with h | h
        · exact hcs d h
        · have : d = name := by simpa using h
          rw [this]; exact hname
      obtain ⟨ns, hns, hpe⟩ := walkList_paths n (cs ++ [name]) (by simp) hall hn p hp
      refine ⟨name :: ns, ?_, by simpa using hpe⟩
      intro d hd
      rcases List.mem_cons.mp hd with h | h
      · rw [h]; exact hname
      · exact hns d h
    · exact walkEntries_paths rest cs hne hcs hrest p hp
end

theorem lookup_wf (es : List (Str × Node)) (c : Str) (n : Node)
    (hwf : Node.wfEntries es = true) (h : es.lookup c = some n) : n.wf = true := by
  induction es with
  | nil => simp at h
  | cons kv rest ih =>
    obtain ⟨k, m⟩ := kv
    simp only [Node.wfEntries, Bool.and_eq_true, decide_eq_true_eq] at hwf
    obtain ⟨⟨_, hm⟩, hrest⟩ := hwf
    rw [List.lookup_cons] at h
    split at h
    · have : m = n := by simpa using h
      rw [← this]; exact hm
    · exact ih hrest h

theorem resolveFrom_wf (root : Node) (hroot : root.wf = true) (comps : List Str) :
    ∀ (stack : List Node), (∀ m ∈ stack, m.wf = true) →
      ∀ n, resolveFrom root stack comps = .ok n → n.wf = true := by
  induction comps with
  | nil =>
    intro stack hst n h
    simp only [resolveFrom] at h
    have : stack.headD root = n := by
      injection h
    rw [← this]
    cases stack with
    | nil => exact hroot
    | cons m rest => exact hst m (List.mem_cons_self _ _)
  | cons c cs ih =>
    intro stack hst n h
    have hcur : (stack.headD root).wf = true := by
      cases stack with
      | nil => exact hroot
      | cons m rest => exact hst m (List.mem_cons_self _ _)
    unfold resolveFrom at h
    split at h
    · rename_i es hes
      rw [hes] at hcur
      split at h
      · exact ih stack hst n h
      · split at h
        · refine ih stack.tail ?_ n h
          intro m hm
          exact hst m (List.mem_of_mem_tail hm)
        · split at h
          · rename_i m hm
            refine ih (m :: stack) ?_ n h
            intro x hx
            rcases List.mem_cons.mp hx with hx | hx
            · rw [hx]; exact lookup_wf es c m (by simpa [Node.wf] using hcur) hm
            · exact hst x hx
          · cases h
    · cases h

theorem resolve_wf (w : World) (hroot : w.root.wf = true) (path : Str) (n : Node)
    (h : resolve w.root w.cwd path = .ok n) : n.wf = true := by
  unfold resolve at h
  split at h
  · cases h
  · exact resolveFrom_wf w.root hroot _ [] (by simp) n h

theorem cleanStep_stack_good (stack : List Str) (c : Str) (hst : ∀ e ∈ stack, GoodName e)
    (hc : '/' ∉ c) : ∀ e ∈ cleanStep true stack c, GoodName e := by
  unfold cleanStep
  split
  · exact hst
  · rename_i h1
    split
    · cases stack with
      | nil => simp
      | cons top rest =>
        have htop : top ≠ dotdot := (hst top (List.mem_cons_self _ _)).2.2.2
        simp only [if_neg htop]
        intro e he
        exact hst e (List.mem_cons_of_mem _ he)
    · rename_i h2
      intro e he
      rcases List.mem_cons.mp he with h | h
      · rw [h]
        exact ⟨fun e0 => h1 (Or.inl e0), hc, fun e0 => h1 (Or.inr e0), h2⟩
      · exact hst e h

theorem foldl_cleanStep_good (l : List Str) (hl : ∀ c ∈ l, '/' ∉ c) :
    ∀ (stack : List Str), (∀ e ∈ stack, GoodName e) →
      ∀ e ∈ l.foldl (cleanStep true) stack, GoodName e := by
  induction l with
  | nil => intro stack hst; exact hst
  | cons c rest ih =>
    intro stack hst
    simp only [List.foldl]
    exact ih (fun d hd => hl d (List.mem_cons_of_mem _ hd)) _
      (cleanStep_stack_good stack c hst (hl c (List.mem_cons_self _ _)))

theorem cleanElems_good (path : Str) (habs : IsAbs path = true) :
    ∀ e ∈ cleanElems path, GoodName e := by
  intro e he
  unfold cleanElems at he
  rw [habs] at he
  exact foldl_cleanStep_good _ (splitSep_noSlash path) [] (by simp) e (List.mem_reverse.mp he)

theorem clean_abs_shape (root : Str) (habs : IsAbs root = true) (hclean : Clean root = root)
    (hroot : root ≠ sep) :
    ∃ cs c, (∀ d ∈ cs, GoodName d) ∧ GoodName c ∧ root = slashed (cs ++ [c]) := by
  have hgood := cleanElems_good root habs
  have hne : cleanElems root ≠ [] := by
    intro e
    apply hroot
    rw [← hclean]
    simp [Clean, habs, e, sep, List.intercalate]
  have hshape : root = slashed (cleanElems root) := by
    have : Clean root = slashed (cleanElems root) := by
      unfold Clean
      simp only [habs, if_true, sep_intercalate _ hne]
      rw [if_neg (slashed_ne_nil _ hne)]
    rw [← this, hclean]
  refine ⟨(cleanElems root).dropLast, (cleanElems root).getLast hne, ?_, ?_, ?_⟩
  · intro d hd
    exact hgood d (List.mem_of_mem_dropLast hd)
  · exact hgood _ (List.getLast_mem hne)
  · rw [List.dropLast_append_getLast hne]
    exact hshape

/-- Where the slots are reversible: for a root given as a clean absolute path
other than `/`, in a tree whose entries have file names, the slot of the file
branch has the base name as its header name and its parent path followed by
the header name is the root; and for every path the walk of the root visits,
the callback builds a slot whose parent path is that of the root, the parent
directory with its separator, and whose parent path followed by the header
name is the visited path. -/
theorem slot_reversible (w : World) (root : Str) (hwf : w.root.wf = true)
    (habs : IsAbs root = true) (hclean : Clean root = root) (hroot : root ≠ sep) :
    (fileSlot root).HeaderName = Base root ∧
    (fileSlot root).ParentPath ++ (fileSlot root).HeaderName = root ∧
    ∀ n, resolve w.root w.cwd root = .ok n →
      ∀ p ∈ (n.walkList root).map Prod.fst,
        ∃ slot, walkSlot root p = some slot ∧
          slot.ParentPath = (fileSlot root).ParentPath ∧
          slot.ParentPath ++ slot.HeaderName = p := by
  obtain ⟨cs, c, hcs, hc, hshape⟩ := clean_abs_shape root habs hclean hroot
  have hfile : fileSlot root = ⟨c, slashed cs ++ ['/']⟩ := by
    rw [hshape, slashed_concat]
    exact fileSlot_dir_name _ c hc.1 hc.2.1
  refine ⟨rfl, ?_, ?_⟩
  · rw [hfile]
    simp only
    rw [hshape, slashed_concat]
    simp
  · intro n hres p hp
    have hnwf := resolve_wf w hwf root n hres
    have hall : ∀ d ∈ cs ++ [c], GoodName d := by
      intro d hd
      rcases List.mem_append.mp hd with h | h
      · exact hcs d h
      · have : d = c := by simpa using h
        rw [this]; exact hc
    rw [hshape] at hp
    obtain ⟨ns, hns, hpe⟩ := walkList_paths n (cs ++ [c]) (by simp) hall hnwf p hp
    have hpe2 : p = slashed (cs ++ c :: ns) := by simpa using hpe
    refine ⟨⟨c ++ slashed ns, slashed cs ++ ['/']⟩, ?_, ?_, ?_⟩
    · rw [hpe2, hshape]
      exact walkSlot_slashed cs ns c hcs hc hns
    · rw [hfile]
    · rw [hpe2, slashed_append]
      simp [slashed]

/-- The slots of the directory `/home/u/proj` of the scenarios are
reversible. -/
theorem slot_reversible_witness :
    (fileSlot "/home/u/proj".toList).HeaderName = Base "/home/u/proj".toList ∧
    (fileSlot "/home/u/proj".toList).ParentPath ++ (fileSlot "/home/u/proj".toList).HeaderName
      = "/home/u/proj".toList ∧
    ∀ n, resolve (Example.world "/home/u".toList Example.emptyConf).root
        (Example.world "/home/u".toList Example.emptyConf).cwd "/home/u/proj".toList = .ok n →
      ∀ p ∈ (n.walkList "/home/u/proj".toList).map Prod.fst,
        ∃ slot, walkSlot "/home/u/proj".toList p = some slot ∧
          slot.ParentPath = (fileSlot "/home/u/proj".toList).ParentPath ∧
          slot.ParentPath ++ slot.HeaderName = p :=
  slot_reversible (Example.world "/home/u".toList Example.emptyConf) "/home/u/proj".toList
    (by decide) rfl (by decide) (by decide)

/-- C5 at a directory root with a trailing separator: `addPathToHandler`
accepts `/home/u/proj/` and visits four paths; `filepath.Dir` of the root is
the root itself, so the slot built for the root has the header name `.` and
the parent path `/home/u/proj/`, which together are not the visited path, and
the header names of the descendants are relative to the root, not to its
parent. The home directory `/root` occurs in no path, so the slots stored in
the restore file are the slots as built. -/
theorem addPathToHandler_trailing_separator :
    (addPathToHandler (Example.world "/home/u".toList Example.emptyConf)
        ⟨Example.rootManager, 0⟩ "/home/u/proj/".toList).1 = none ∧
    (addPathToHandler (Example.world "/home/u".toList Example.emptyConf)
        ⟨Example.rootManager, 0⟩
        "/home/u/proj/".toList).2.man.Handler.InputFiles.map InputPaths.Path
      = ["/home/u/proj/".toList, "/home/u/proj/a.txt".toList, "/home/u/proj/build".toList,
         "/home/u/proj/build/out.bin".toList] ∧
    (addPathToHandler (Example.world "/home/u".toList Example.emptyConf)
        ⟨Example.rootManager, 0⟩
        "/home/u/proj/".toList).2.man.Handler.Restore.JSONFile.Slots.map Prod.snd
      = [⟨".".toList, "/home/u/proj/".toList⟩, ⟨"a.txt".toList, "/home/u/proj/".toList⟩,
         ⟨"build".toList, "/home/u/proj/".toList⟩,
         ⟨"build/out.bin".toList, "/home/u/proj/".toList⟩] ∧
    walkSlot "/home/u/proj/".toList "/home/u/proj/".toList
      = some ⟨".".toList, "/home/u/proj/".toList⟩ ∧
    "/home/u/proj/".toList ++ ".".toList ≠ "/home/u/proj/".toList ∧
    Dir "/home/u/proj/".toList = "/home/u/proj".toList := by
  refine ⟨?_, ?_, ?_, ?_, ?_, ?_⟩ <;> decide

end CB
